import Mathlib

/-!
Shallow embedding of `src/fp_growth.py` (FP-growth frequent-itemset mining).

Modelling conventions:

* Items are `String`s, exactly as in the source.
* Python `collections.Counter` and `dict` preserve insertion order, and that
  order is observable (tie-breaks in the two `sorted` calls, header-table
  iteration).  They are therefore modelled as association lists
  (`List (String × _)`) with insertion-ordered update functions below.
* Mutable `FPNode` objects linked by `parent` / `children` / `next` pointers
  are modelled as an arena: `FPTree.nodes` is the list of all nodes in
  creation order, a node's `parent` and the children map store arena indices,
  and each header-table entry stores its same-item chain as the list of arena
  indices in creation order (the code appends at the chain's tail).
* `list.sort(key=..., reverse=True)` / `sorted(..., key=...)` are Python's
  stable sorts; `sortDesc` / `sortAsc` below are stable insertion sorts with
  the same specification (equal keys keep their original relative order).
* The upward `while parent` walk of `get_paths` is modelled with explicit
  fuel `tr.nodes.length`: in every tree the code builds, a node's parent was
  created before the node, so parent indices strictly decrease along the walk
  and `tr.nodes.length` steps always suffice.
* The recursion of `fp_growth` has no structural termination measure in the
  source, so the embedded `fpGrowth` takes explicit fuel; exhausted fuel
  returns the empty table.  Theorems either hold for every fuel or supply a
  proved sufficient fuel.
* `sys.getsizeof`-based node sizes are platform values; they are abstracted
  as an arbitrary size function `sz : FPNode → Nat` passed to the functions
  that use memory accounting.
* `tracemalloc` (process-level memory introspection in
  `mine_frequent_itemsets`) is outside the embedding; the result record keeps
  the tree-level accounting that `fp_growth` itself computes.
* Python's `int(min_support * num_transactions)` multiplies floats and
  truncates toward zero; the ratio is modelled as `ℚ` and the truncation as
  `intTrunc`.
-/

/-- Ordered-dictionary lookup with default 0: value of the first entry whose
key is `x`, as `Counter[x]` / `dict[x]` on the association lists used here. -/
def lookupCnt : List (String × Nat) → String → Nat
  | [], _ => 0
  | pr :: rest, x => if pr.1 = x then pr.2 else lookupCnt rest x

/-- `Counter` update for one occurrence of item `x`: increment the existing
entry in place, else append a new entry (insertion order preserved). -/
def counterAdd (l : List (String × Nat)) (x : String) : List (String × Nat) :=
  if l.any (fun pr => pr.1 = x) then
    l.map (fun pr => if pr.1 = x then (pr.1, pr.2 + 1) else pr)
  else
    l ++ [(x, 1)]

/-- The `item_counts` Counter of `FPTree.__init__`: occurrence counts of all
items of all transactions, keyed in first-occurrence order. -/
def itemCounts (transactions : List (List String)) : List (String × Nat) :=
  transactions.foldl (fun acc t => t.foldl counterAdd acc) []

/-- The `frequent_items` dict of `FPTree.__init__`: entries of `item_counts`
whose count is at least `min_support` (a Python int, possibly non-positive). -/
def freqOf (transactions : List (List String)) (minSup : Int) : List (String × Nat) :=
  (itemCounts transactions).filter (fun pr => minSup ≤ (pr.2 : Int))

/-- Stable insertion step for descending sort: `x` (originally earlier) goes
before every later element of equal key. -/
def insertDesc {α : Type} (key : α → Nat) (x : α) : List α → List α
  | [] => [x]
  | y :: ys => if key y ≤ key x then x :: y :: ys else y :: insertDesc key x ys

/-- Stable sort by `key`, descending — the specification of Python's
`list.sort(key=key, reverse=True)`. -/
def sortDesc {α : Type} (key : α → Nat) : List α → List α
  | [] => []
  | x :: xs => insertDesc key x (sortDesc key xs)

/-- Stable insertion step for ascending sort. -/
def insertAsc {α : Type} (key : α → Nat) (x : α) : List α → List α
  | [] => [x]
  | y :: ys => if key x ≤ key y then x :: y :: ys else y :: insertAsc key x ys

/-- Stable sort by `key`, ascending — the specification of Python's
`sorted(..., key=key)`. -/
def sortAsc {α : Type} (key : α → Nat) : List α → List α
  | [] => []
  | x :: xs => insertAsc key x (sortAsc key xs)

/-- One transaction as prepared by `FPTree.__init__` before insertion: keep
only frequent items, then stable-sort by frequency, descending. -/
def processedTx (freq : List (String × Nat)) (t : List String) : List String :=
  sortDesc (fun x => lookupCnt freq x)
    (t.filter (fun x => freq.any (fun pr => pr.1 = x)))

/-- A node of the FP-tree (`FPNode` in the source).  `parent` and the values
of `children` are arena indices into `FPTree.nodes`; the `next` chain is kept
in the header table instead of in the node. -/
structure FPNode where
  item : String
  count : Nat
  parent : Option Nat
  children : List (String × Nat)
deriving DecidableEq, Repr

/-- The FP-tree (`FPTree` in the source).  `nodes` is the arena in creation
order with the root at index 0; a header-table entry is
`(item, (total count, same-item chain of arena indices in creation order))`. -/
structure FPTree where
  min_support : Int
  nodes : List FPNode
  header_table : List (String × Nat × List Nat)
  num_nodes : Nat
  max_depth : Nat
  frequent_items : List (String × Nat)
deriving DecidableEq, Repr

/-- Item label of the node at arena index `idx` (`""` when out of range). -/
def itemOf (tr : FPTree) (idx : Nat) : String :=
  match tr.nodes.get? idx with
  | some nd => nd.item
  | none => ""

/-- Parent index of the node at arena index `idx`. -/
def parentOf (tr : FPTree) (idx : Nat) : Option Nat :=
  (tr.nodes.get? idx).bind (fun nd => nd.parent)

/-- Count of the node at arena index `idx`. -/
def countOf (tr : FPTree) (idx : Nat) : Nat :=
  match tr.nodes.get? idx with
  | some nd => nd.count
  | none => 0

/-- Children map of the node at arena index `idx`. -/
def childrenOf (tr : FPTree) (idx : Nat) : List (String × Nat) :=
  match tr.nodes.get? idx with
  | some nd => nd.children
  | none => []

/-- `item in node.children` / `node.children[item]` of the source. -/
def childLookup (tr : FPTree) (idx : Nat) (item : String) : Option Nat :=
  ((childrenOf tr idx).find? (fun pr => pr.1 = item)).map (fun pr => pr.2)

/-- `node.children[item].increment()`: bump the count of the node at `idx`. -/
def incrementNode (tr : FPTree) (idx : Nat) : FPTree :=
  match tr.nodes.get? idx with
  | some nd => { tr with nodes := tr.nodes.set idx { nd with count := nd.count + 1 } }
  | none => tr

/-- `node.children[item] = new_node`: append a child edge at node `idx`
(new dict key, hence appended in insertion order). -/
def addChildEdge (tr : FPTree) (idx : Nat) (item : String) (childIdx : Nat) : FPTree :=
  match tr.nodes.get? idx with
  | some nd => { tr with nodes := tr.nodes.set idx { nd with children := nd.children ++ [(item, childIdx)] } }
  | none => tr

/-- Header-table update on creation of a new node: append the node at the
tail of the item's same-item chain (the code walks `next` links to the end),
or create the entry `(frequent_items[item], new_node)`. -/
def headerAppend (tr : FPTree) (item : String) (newIdx : Nat) : FPTree :=
  if tr.header_table.any (fun e => e.1 = item) then
    { tr with header_table :=
        tr.header_table.map (fun e => if e.1 = item then (e.1, e.2.1, e.2.2 ++ [newIdx]) else e) }
  else
    { tr with header_table :=
        tr.header_table ++ [(item, lookupCnt tr.frequent_items item, [newIdx])] }

/-- `new_node = FPNode(item, 1, node)` plus arena registration: append the
fresh node at the end of the arena. -/
def appendNode (tr : FPTree) (nd : FPNode) : FPTree :=
  { tr with nodes := tr.nodes ++ [nd] }

/-- `self.num_nodes += 1`. -/
def bumpNumNodes (tr : FPTree) : FPTree :=
  { tr with num_nodes := tr.num_nodes + 1 }

/-- `self.max_depth = max(self.max_depth, depth + 1)`. -/
def bumpDepth (tr : FPTree) (depth : Nat) : FPTree :=
  { tr with max_depth := max tr.max_depth (depth + 1) }

/-- The `else` branch of `_insert_transaction`: create the new child node at
the next arena index, register the child edge, bump `num_nodes`, and update
the header table (in the source's order). -/
def newNodeTree (tr : FPTree) (nodeIdx : Nat) (item : String) : FPTree :=
  headerAppend
    (bumpNumNodes
      (addChildEdge (appendNode tr ⟨item, 1, some nodeIdx, []⟩) nodeIdx item tr.nodes.length))
    item tr.nodes.length

/-- `FPTree._insert_transaction`: walk/extend the trie along `items` from the
node at `nodeIdx`, updating `max_depth`, counts, the arena, `num_nodes` and
the header table exactly as the source does. -/
def insertTransaction (tr : FPTree) (items : List String) (nodeIdx : Nat) (depth : Nat) : FPTree :=
  match items with
  | [] => tr
  | item :: rest =>
    let tr1 := bumpDepth tr depth
    match childLookup tr1 nodeIdx item with
    | some childIdx =>
      insertTransaction (incrementNode tr1 childIdx) rest childIdx (depth + 1)
    | none =>
      insertTransaction (newNodeTree tr1 nodeIdx item) rest tr1.nodes.length (depth + 1)

/-- `FPTree.__init__`: count items, filter the frequent ones, then insert
each transaction's filtered, frequency-sorted item list (skipping empties). -/
def buildTree (transactions : List (List String)) (minSup : Int) (rootItem : Option String) : FPTree :=
  let freq := freqOf transactions minSup
  let init : FPTree :=
    { min_support := minSup
      nodes := [⟨rootItem.getD "root", 0, none, []⟩]
      header_table := []
      num_nodes := 1
      max_depth := 0
      frequent_items := freq }
  transactions.foldl
    (fun tr t =>
      let sorted := processedTx freq t
      if sorted.isEmpty then tr else insertTransaction tr sorted 0 0)
    init

/-- The tree state of `FPTree.__init__` before any insertion: the lone root
node and an empty header table. -/
def initTree (transactions : List (List String)) (minSup : Int)
    (rootItem : Option String) : FPTree :=
  { min_support := minSup
    nodes := [⟨rootItem.getD "root", 0, none, []⟩]
    header_table := []
    num_nodes := 1
    max_depth := 0
    frequent_items := freqOf transactions minSup }

/-- One iteration of the insertion loop of `FPTree.__init__` (named so that
fold lemmas can speak about it; `buildTree` is definitionally the fold of
this step from `initTree`). -/
def insStep (transactions : List (List String)) (minSup : Int)
    (tr : FPTree) (t : List String) : FPTree :=
  if (processedTx (freqOf transactions minSup) t).isEmpty then tr
  else insertTransaction tr (processedTx (freqOf transactions minSup) t) 0 0

/-- The `while parent and parent.item != 'root' and parent.item is not None`
walk of `get_paths`, collecting parent items bottom-up.  `fuel` bounds the
walk; parent indices strictly decrease in every built tree, so the
`tr.nodes.length` used by `climbList` always completes the walk. -/
def climbAux (tr : FPTree) : Nat → Nat → List String
  | 0, _ => []
  | fuel + 1, idx =>
    match parentOf tr idx with
    | none => []
    | some p => if itemOf tr p = "root" then [] else itemOf tr p :: climbAux tr fuel p

/-- The full bottom-up item path collected above the node at `idx`. -/
def climbList (tr : FPTree) (idx : Nat) : List String :=
  climbAux tr tr.nodes.length idx

/-- The `while node:` loop of `get_paths` over one same-item chain: reverse
each collected path and keep it (with the node's count) only if non-empty. -/
def getPathsLoop (tr : FPTree) : List Nat → List (List String × Nat) → List (List String × Nat)
  | [], acc => acc
  | idx :: rest, acc =>
    let path := (climbList tr idx).reverse
    getPathsLoop tr rest (if path.isEmpty then acc else acc ++ [(path, countOf tr idx)])

/-- `FPTree.get_paths`: all (root-to-node path, count) pairs for the nodes of
`item`'s same-item chain; `[]` when the item has no header entry. -/
def getPaths (tr : FPTree) (item : String) : List (List String × Nat) :=
  match tr.header_table.find? (fun e => e.1 = item) with
  | none => []
  | some e => getPathsLoop tr e.2.2 []

/-- Recursive part of `FPTree._calculate_tree_memory` over the arena, with
fuel (child indices are strictly larger than their parent's, so
`tr.nodes.length` suffices); `sz` abstracts `FPNode.get_memory_size`. -/
def calcTreeMemory (sz : FPNode → Nat) (tr : FPTree) : Nat → Nat → Nat
  | 0, _ => 0
  | fuel + 1, idx =>
    match tr.nodes.get? idx with
    | none => 0
    | some nd => sz nd + (nd.children.map (fun pr => calcTreeMemory sz tr fuel pr.2)).sum

/-- Total approximate memory of a tree (`_calculate_tree_memory(self.root)`). -/
def treeMemory (sz : FPNode → Nat) (tr : FPTree) : Nat :=
  calcTreeMemory sz tr tr.nodes.length 0

/-- The `memory_stats` dict threaded through `fp_growth`. -/
structure MemStats where
  total_trees_created : Nat
  max_tree_nodes : Nat
  max_tree_depth : Nat
  total_tree_memory_bytes : Nat
deriving DecidableEq, Repr

/-- `patterns[key] = value` on an insertion-ordered dict: overwrite in place
when the key exists, else append. -/
def dictInsert (l : List (List String × Nat)) (k : List String) (v : Nat) :
    List (List String × Nat) :=
  if l.any (fun pr => pr.1 = k) then
    l.map (fun pr => if pr.1 = k then (k, v) else pr)
  else
    l ++ [(k, v)]

/-- `patterns.update(other)` on insertion-ordered dicts. -/
def dictUpdate (l other : List (List String × Nat)) : List (List String × Nat) :=
  other.foldl (fun acc pr => dictInsert acc pr.1 pr.2) l

/-- Materialisation of the conditional database in `fp_growth`: each prefix
path repeated `path_count` times, in path order. -/
def condTransactions (cps : List (List String × Nat)) : List (List String) :=
  cps.foldl (fun l pc => l ++ List.replicate pc.2 pc.1) []

/-- One iteration of the `for item, (count, _) in items:` loop of
`fp_growth`, threading the `(patterns, memory_stats)` state.  `rec` is the
recursive call at the next level (`fp_growth` with the same support floor and
tracking flag), passed explicitly so that the loop body is a named function
the theorems below can reason about. -/
def fpStep (tree : FPTree) (pref : List String) (track : Bool)
    (rec : List (List String) → List String → List (List String × Nat) × MemStats)
    (acc : List (List String × Nat) × MemStats) (e : String × Nat × List Nat) :
    List (List String × Nat) × MemStats :=
  let newPattern := pref ++ [e.1]
  let patterns := dictInsert acc.1 newPattern e.2.1
  let condPats := getPaths tree e.1
  if condPats.isEmpty then (patterns, acc.2)
  else
    let child := rec (condTransactions condPats) newPattern
    let patterns := dictUpdate patterns child.1
    let msAcc :=
      if track then
        MemStats.mk (acc.2.total_trees_created + child.2.total_trees_created)
          (max acc.2.max_tree_nodes child.2.max_tree_nodes)
          (max acc.2.max_tree_depth child.2.max_tree_depth)
          (acc.2.total_tree_memory_bytes + child.2.total_tree_memory_bytes)
      else acc.2
    (patterns, msAcc)

/-- `fp_growth(transactions, min_support, prefix, track_memory)`.  `fuel`
bounds the recursion depth (the source recursion has no structural measure);
with exhausted fuel the call contributes nothing.  Returns the pattern table
(insertion-ordered dict from item-tuple to support) and the memory stats. -/
def fpGrowth (sz : FPNode → Nat) :
    Nat → List (List String) → Int → List String → Bool →
    List (List String × Nat) × MemStats
  | 0, _, _, _, _ => ([], ⟨0, 0, 0, 0⟩)
  | fuel + 1, transactions, minSup, pref, track =>
    let tree := buildTree transactions minSup none
    let ms : MemStats :=
      if track then ⟨1, tree.num_nodes, tree.max_depth, treeMemory sz tree⟩ else ⟨0, 0, 0, 0⟩
    if tree.frequent_items.isEmpty then ([], ms)
    else
      (sortAsc (fun e => e.2.1) tree.header_table).foldl
        (fpStep tree pref track (fun T' p' => fpGrowth sz fuel T' minSup p' track))
        ([], ms)

/-- Python's `int()` truncation toward zero, on the rational model of a
float. -/
def intTrunc (q : ℚ) : Int :=
  if 0 ≤ q then ⌊q⌋ else ⌈q⌉

/-- The result dict of `mine_frequent_itemsets` (the `tracemalloc` process
fields are outside the embedding; `memory_stats` keeps the tree-level
accounting that `fp_growth` returned, present exactly when tracking is on). -/
structure MineResult where
  frequent_itemsets : List (List String × Nat)
  num_transactions : Nat
  min_support : ℚ
  min_support_count : Int
  memory_stats : Option MemStats
deriving DecidableEq, Repr

/-- `mine_frequent_itemsets(transactions, min_support, track_memory)`: resolve
the absolute floor as `int(min_support * num_transactions)` and run
`fp_growth`.  The source performs no validation of the ratio or of the
resolved floor and has no error path. -/
def mineFrequentItemsets (sz : FPNode → Nat) (fuel : Nat)
    (transactions : List (List String)) (minSup : ℚ) (track : Bool) : MineResult :=
  let n := transactions.length
  let cnt := intTrunc (minSup * n)
  let res := fpGrowth sz fuel transactions cnt [] track
  { frequent_itemsets := res.1
    num_transactions := n
    min_support := minSup
    min_support_count := cnt
    memory_stats := if track then some res.2 else none }

/- ------------------------------------------------------------------
Specification-side definitions (stated from the spec's words, for comparison
with the embedded code).
------------------------------------------------------------------ -/

/-- Number of occurrences of item `x` over all transactions (every repeat
inside one transaction counted). -/
def occCount (x : String) (transactions : List (List String)) : Nat :=
  (transactions.map (fun t => t.count x)).sum

/-- True support of an itemset: the number of transactions containing every
item of `s` (glossary of the spec). -/
def trueSupport (transactions : List (List String)) (s : List String) : Nat :=
  (transactions.filter (fun t => s.all (fun x => t.contains x))).length

/-- The set of distinct item labels of a transaction list. -/
def itemsFinset (transactions : List (List String)) : Finset String :=
  transactions.flatten.toFinset

/-- Keys of the header table. -/
def headerKeys (tr : FPTree) : List String :=
  tr.header_table.map (fun e => e.1)

/-- The prefix paths of gathered transactions processed exactly as
`FPTree.__init__` will insert them. -/
def processedList (transactions : List (List String)) (minSup : Int) : List (List String) :=
  transactions.map (processedTx (freqOf transactions minSup))

/-- The contribution of one chain node to `get_paths`: its reversed climb
with its count, or nothing when the path is empty. -/
def pathEntry (tr : FPTree) (idx : Nat) : Option (List String × Nat) :=
  if ((climbList tr idx).reverse).isEmpty then none
  else some ((climbList tr idx).reverse, countOf tr idx)

/-- Claim C4's reading of `get_paths`: one `(root-to-node path, count)` pair
for EVERY node of the item's chain, in chain order — including nodes directly
below the root, whose path is empty.  (The source additionally filters out
the empty paths.) -/
def getPathsAllNodes (tr : FPTree) (item : String) : List (List String × Nat) :=
  match tr.header_table.find? (fun e => e.1 = item) with
  | none => []
  | some e => e.2.2.map (fun idx => ((climbList tr idx).reverse, countOf tr idx))

/-- Spec §4.2 step 5 reading of the accounting: the list of the FP-trees
built by one `Mine` call and all of its recursive descendants, in call order
(one tree per invocation, terminal invocations included). -/
def callTrees (fuel : Nat) (transactions : List (List String)) (minSup : Int) :
    List FPTree :=
  match fuel with
  | 0 => []
  | fuel + 1 =>
    let tree := buildTree transactions minSup none
    if tree.frequent_items.isEmpty then [tree]
    else
      tree ::
        (sortAsc (fun e => e.2.1) tree.header_table).flatMap
          (fun e =>
            let condPats := getPaths tree e.1
            if condPats.isEmpty then []
            else callTrees fuel (condTransactions condPats) minSup)

/-- Maximum of a list of naturals (0 for the empty list). -/
def natMaxList (l : List Nat) : Nat :=
  l.foldr max 0

/-- Spec §4.2 step 5 aggregation over a list of trees: trees-built is the
count, node/depth fields are maxima, memory is the sum. -/
def statsOf (sz : FPNode → Nat) (l : List FPTree) : MemStats :=
  ⟨l.length,
   natMaxList (l.map (fun t => t.num_nodes)),
   natMaxList (l.map (fun t => t.max_depth)),
   (l.map (treeMemory sz)).sum⟩

/-- Merging one accounting record into another: sums on the additive fields,
maxima on the two peak fields (spec §4.2 step 5). -/
def msCombine (a b : MemStats) : MemStats :=
  ⟨a.total_trees_created + b.total_trees_created,
   max a.max_tree_nodes b.max_tree_nodes,
   max a.max_tree_depth b.max_tree_depth,
   a.total_tree_memory_bytes + b.total_tree_memory_bytes⟩

/-- What the upward walk of a child of node `idx` collects: nothing when the
node at `idx` is labelled `root` (the walk stops there), otherwise the label
of `idx` followed by `idx`'s own walk. -/
def extPath (tr : FPTree) (fuel idx : Nat) : List String :=
  if itemOf tr idx = "root" then [] else itemOf tr idx :: climbAux tr fuel idx

/-- Structural invariant of every tree reachable by `FPTree.__init__` over a
transaction list whose processed (filtered, frequency-sorted) forms are the
members of `S`: the root is node 0 labelled `root`; parent indices strictly
decrease (nodes are created after their parents); child edges are coherent
with the `parent` back-references and labels; every non-root node's label has
a header entry; chains point at in-range nodes of the right label; header
counts are the `frequent_items` counts; and every node's collected upward
path, extended with the node's own label, is a contiguous run of one of the
processed transactions of `S`. -/
structure TreeInv (tr : FPTree) (S : List (List String)) : Prop where
  lenPos : 0 < tr.nodes.length
  rootItem : itemOf tr 0 = "root"
  rootPar : parentOf tr 0 = none
  parentDec : ∀ idx, 1 ≤ idx → idx < tr.nodes.length →
    ∃ p, parentOf tr idx = some p ∧ p < idx
  childCoh : ∀ idx pr, pr ∈ childrenOf tr idx →
    1 ≤ pr.2 ∧ pr.2 < tr.nodes.length ∧ itemOf tr pr.2 = pr.1 ∧ parentOf tr pr.2 = some idx
  nodeHdr : ∀ idx, 1 ≤ idx → idx < tr.nodes.length →
    (tr.header_table.any (fun e => e.1 = itemOf tr idx)) = true
  hdrChain : ∀ e ∈ tr.header_table, ∀ idx ∈ e.2.2,
    1 ≤ idx ∧ idx < tr.nodes.length ∧ itemOf tr idx = e.1
  hdrCount : ∀ e ∈ tr.header_table,
    e.2.1 = lookupCnt tr.frequent_items e.1 ∧
    (tr.frequent_items.any (fun pr => pr.1 = e.1)) = true
  pathInf : ∀ idx, 1 ≤ idx → idx < tr.nodes.length → ∀ fuel, ∃ s ∈ S,
    ((climbAux tr fuel idx).reverse ++ [itemOf tr idx]) <:+: s
  hdrNodup : (tr.header_table.map (fun e => e.1)).Nodup

/-- Insertion precondition at node `idx`: some processed transaction of `S`
contains, as a contiguous run, what a new child chain below `idx` will see
above itself followed by the items still to insert. -/
def Anchor (tr : FPTree) (idx : Nat) (rest : List String) (S : List (List String)) : Prop :=
  ∃ s ∈ S, ∀ fuel, ((extPath tr fuel idx).reverse ++ rest) <:+: s

/- ------------------------------------------------------------------
Concrete instances used by the claims.
------------------------------------------------------------------ -/

/-- A concrete node-size function for evaluating the embedding (the claims
settled below do not depend on the platform's `sys.getsizeof` values). -/
def szZero : FPNode → Nat := fun _ => 0

/-- Two transactions over the same two-element itemset, listed in opposite
orders.  Both items have frequency 2, and the stable per-transaction sort
keeps each transaction's own order, so the two insertions disagree on the
relative order of `a` and `b`. -/
def Ttie : List (List String) := [["a", "b"], ["b", "a"]]

/-- The grocery scenario of the spec (§8). -/
def Tgrocery : List (List String) :=
  [["bread", "milk"],
   ["bread", "diaper", "beer", "eggs"],
   ["milk", "diaper", "beer", "cola"],
   ["bread", "milk", "diaper", "beer"],
   ["bread", "milk", "diaper", "cola"]]

/-- One transaction repeating a single item three times. -/
def Tdup : List (List String) := [["x", "x", "x"]]

/-- Transactions that use the literal string `root` as a genuine item. -/
def Troot : List (List String) := [["root", "a"], ["root", "a"]]

/-- A transaction with a duplicated label next to a singleton transaction. -/
def Tdouble : List (List String) := [["a", "a"], ["b"]]

/- ------------------------------------------------------------------
Theorems.
------------------------------------------------------------------ -/

/-- Claim C1 (code_bug evidence).  On `Ttie = [[a,b],[b,a]]` — distinct
labels within each transaction — with support floor 2, the itemset `{a,b}`
has true support 2 ≥ 2, yet `fp_growth` returns only the two singletons:
the per-transaction stable sort breaks the frequency tie between `a` and `b`
differently in the two transactions, so the tree splits the pair across two
branches and the conditional databases of both items fall below the floor.
The claimed completeness ("every itemset with true support ≥ floor is
present with its true support") fails at this input. -/
theorem c1_code_bug_eval :
    (∀ t ∈ Ttie, t.Nodup) ∧
    trueSupport Ttie ["a", "b"] = 2 ∧
    (fpGrowth szZero 9 Ttie 2 [] false).1 = [(["a"], 2), (["b"], 2)] := by
  decide

/-- Claim C2 (counterexample).  With ratio 0 the resolved absolute floor is
0, yet `mine_frequent_itemsets` does not reject the call: it builds the tree,
mines, and returns the singleton pattern — there is no configuration-error
path anywhere in the source. -/
theorem c2_counterexample :
    (mineFrequentItemsets szZero 9 [["a"]] 0 false).min_support_count = 0 ∧
    (mineFrequentItemsets szZero 9 [["a"]] 0 false).frequent_itemsets = [(["a"], 1)] := by
  simp only [mineFrequentItemsets]
  norm_num [intTrunc]
  decide

/-- Claim C3.  The grocery scenario: ratio 2/5 resolves to floor 2, all eight
required itemsets are present with the required supports (as insertion-ordered
tuples of the mined table), and every itemset present has true support ≥ 2. -/
theorem c3_theorem :
    (mineFrequentItemsets szZero 20 Tgrocery (2/5) false).min_support_count = 2 ∧
    (["bread"], 4) ∈ (mineFrequentItemsets szZero 20 Tgrocery (2/5) false).frequent_itemsets ∧
    (["milk"], 4) ∈ (mineFrequentItemsets szZero 20 Tgrocery (2/5) false).frequent_itemsets ∧
    (["diaper"], 4) ∈ (mineFrequentItemsets szZero 20 Tgrocery (2/5) false).frequent_itemsets ∧
    (["beer"], 3) ∈ (mineFrequentItemsets szZero 20 Tgrocery (2/5) false).frequent_itemsets ∧
    (["milk", "bread"], 3) ∈ (mineFrequentItemsets szZero 20 Tgrocery (2/5) false).frequent_itemsets ∧
    (["diaper", "bread"], 3) ∈ (mineFrequentItemsets szZero 20 Tgrocery (2/5) false).frequent_itemsets ∧
    (["diaper", "milk"], 3) ∈ (mineFrequentItemsets szZero 20 Tgrocery (2/5) false).frequent_itemsets ∧
    (["beer", "diaper"], 3) ∈ (mineFrequentItemsets szZero 20 Tgrocery (2/5) false).frequent_itemsets ∧
    ((mineFrequentItemsets szZero 20 Tgrocery (2/5) false).frequent_itemsets.all
      (fun kv => 2 ≤ trueSupport Tgrocery kv.1)) = true := by
  have h : intTrunc ((2/5 : ℚ) * ((Tgrocery.length : Nat) : ℚ)) = 2 := by
    norm_num [intTrunc, Tgrocery]
  simp only [mineFrequentItemsets]
  rw [h]
  decide

/-- Claim C4 (counterexample).  In the tree of `[[a]]` the item `a` has one
chain node sitting directly below the root; the claim's reading of
`get_paths` returns the pair `([], 1)` for it, but the code filters empty
paths out (`if path:`) and returns `[]`. -/
theorem c4_counterexample :
    getPaths (buildTree [["a"]] 1 none) "a" = [] ∧
    getPathsAllNodes (buildTree [["a"]] 1 none) "a" = [([], 1)] := by
  decide

/-- Claim C5 (counterexample).  On `Tdup = [[x,x,x]]` with floor 1 the
conditional database of `x` is `[[x],[x,x]]`: the conditioning item is NOT
removed (the label repeats inside one transaction), the distinct-item
universe does not shrink, and the recursion needs depth 2 even though there
is a single distinct item — `fp_growth` truncated to `card + 1 = 2` nested
calls returns a strictly smaller table than with one more level. -/
theorem c5_counterexample :
    (itemsFinset Tdup).card = 1 ∧
    condTransactions (getPaths (buildTree Tdup 1 none) "x") = [["x"], ["x", "x"]] ∧
    ¬ itemsFinset (condTransactions (getPaths (buildTree Tdup 1 none) "x")) ⊂ itemsFinset Tdup ∧
    (fpGrowth szZero ((itemsFinset Tdup).card + 1) Tdup 1 [] false).1 ≠
      (fpGrowth szZero ((itemsFinset Tdup).card + 2) Tdup 1 [] false).1 := by
  decide

/-- Claim C6.  The embedded `fp_growth` is a pure function of its inputs (the
source's only ambient state, dict ordering, is deterministic insertion order
and is part of the model): two runs on equal inputs return identical pattern
tables and stats. -/
theorem c6_theorem (sz : FPNode → Nat) (f₁ f₂ : Nat) (T₁ T₂ : List (List String))
    (s₁ s₂ : Int) (p₁ p₂ : List String) (b₁ b₂ : Bool)
    (hf : f₁ = f₂) (hT : T₁ = T₂) (hs : s₁ = s₂) (hp : p₁ = p₂) (hb : b₁ = b₂) :
    fpGrowth sz f₁ T₁ s₁ p₁ b₁ = fpGrowth sz f₂ T₂ s₂ p₂ b₂ := by
  subst hf; subst hT; subst hs; subst hp; subst hb; rfl

/-- Witness for C6 at a concrete input. -/
theorem c6_witness :
    fpGrowth szZero 9 [["a", "b"]] 1 [] false = fpGrowth szZero 9 [["a", "b"]] 1 [] false :=
  c6_theorem szZero 9 9 [["a", "b"]] [["a", "b"]] 1 1 [] [] false false rfl rfl rfl rfl rfl

/-- Claim C8.  An empty transaction list yields an empty header table and an
empty pattern table, and more generally whenever no item meets the floor
(`frequent_items` empty) `fp_growth` returns the empty table through its
terminal case; the embedding is total, so no error is produced. -/
theorem c8_theorem (s : Int) (p : List String) (tk : Bool) (fuel : Nat)
    (T : List (List String)) (h : (buildTree T s none).frequent_items = []) :
    (buildTree ([] : List (List String)) s none).header_table = [] ∧
    (fpGrowth szZero (fuel + 1) ([] : List (List String)) s p tk).1 = [] ∧
    (fpGrowth szZero (fuel + 1) T s p tk).1 = [] := by
  have h0 : (buildTree ([] : List (List String)) s none).frequent_items = [] := rfl
  refine ⟨rfl, ?_, ?_⟩
  · simp [fpGrowth, h0]
  · simp [fpGrowth, h]

/-- Witness for C8: floor 5 with a single two-item transaction leaves no
frequent item, and the mined table is empty. -/
theorem c8_witness :
    (buildTree ([] : List (List String)) 5 none).header_table = [] ∧
    (fpGrowth szZero 3 ([] : List (List String)) 5 [] false).1 = [] ∧
    (fpGrowth szZero 3 [["a", "b"]] 5 [] false).1 = [] :=
  c8_theorem 5 [] false 2 [["a", "b"]] (by decide)

/-- The chain loop of `get_paths` appends, in chain order, exactly the
non-empty reversed climbs paired with the node counts. -/
theorem getPathsLoop_eq (tr : FPTree) (chain : List Nat) (acc : List (List String × Nat)) :
    getPathsLoop tr chain acc = acc ++ chain.filterMap (pathEntry tr) := by
  induction chain generalizing acc with
  | nil => simp [getPathsLoop]
  | cons idx rest ih =>
    have hrec : getPathsLoop tr (idx :: rest) acc =
        getPathsLoop tr rest
          (if ((climbList tr idx).reverse).isEmpty then acc
           else acc ++ [((climbList tr idx).reverse, countOf tr idx)]) := rfl
    by_cases h : ((climbList tr idx).reverse).isEmpty = true
    · have he : pathEntry tr idx = none := by simp [pathEntry, h]
      rw [hrec, if_pos h, ih, List.filterMap_cons, he]
    · have he : pathEntry tr idx = some ((climbList tr idx).reverse, countOf tr idx) := by
        simp [pathEntry, h]
      rw [hrec, if_neg h, ih, List.filterMap_cons, he, List.append_assoc]
      rfl

/-- The upward walk never collects the label `root`: the loop stops at the
first ancestor labelled `root` and never appends that label. -/
theorem root_not_mem_climbAux (tr : FPTree) :
    ∀ (fuel idx : Nat), "root" ∉ climbAux tr fuel idx := by
  intro fuel
  induction fuel with
  | zero => intro idx; simp [climbAux]
  | succ f ih =>
    intro idx
    unfold climbAux
    cases hp : parentOf tr idx with
    | none => simp
    | some p =>
      by_cases hr : itemOf tr p = "root"
      · simp [hr]
      · simp only [hr, if_false, List.mem_cons, not_or]
        exact ⟨fun h => hr h.symm, ih p⟩

/-- Claim C4 (amended).  `get_paths` returns, for each node of the item's
same-item chain in chain order, the node's root-exclusive prefix path (in
root-to-node order) paired with the node's count — except that chain nodes
sitting directly below the root (empty path) are omitted; an item with no
header entry yields the empty list. -/
theorem c4_theorem (tr : FPTree) (item : String) :
    getPaths tr item =
      (match tr.header_table.find? (fun e => e.1 = item) with
       | none => []
       | some e => e.2.2.filterMap (pathEntry tr)) := by
  unfold getPaths
  cases hf : tr.header_table.find? (fun e => e.1 = item) with
  | none => rfl
  | some e => simpa using getPathsLoop_eq tr e.2.2 []

/-- Characterisation of the members of a `get_paths` result: each comes from
a chain node of the item's header entry, as its non-empty reversed climb
paired with the node's count. -/
theorem mem_getPaths (tr : FPTree) (item : String) (p : List String) (c : Nat)
    (h : (p, c) ∈ getPaths tr item) :
    ∃ e, tr.header_table.find? (fun e => e.1 = item) = some e ∧
      ∃ idx ∈ e.2.2, p = (climbList tr idx).reverse ∧ p ≠ [] ∧ c = countOf tr idx := by
  unfold getPaths at h
  rcases hf : tr.header_table.find? (fun e => e.1 = item) with _ | e
  · rw [hf] at h; simp at h
  · rw [hf] at h
    have h' : (p, c) ∈ getPathsLoop tr e.2.2 [] := h
    rw [getPathsLoop_eq] at h'
    simp only [List.nil_append, List.mem_filterMap] at h'
    obtain ⟨idx, hidx, hsome⟩ := h'
    refine ⟨e, hf, idx, hidx, ?_⟩
    by_cases hemp : ((climbList tr idx).reverse).isEmpty = true
    · rw [pathEntry.eq_def, if_pos hemp] at hsome
      cases hsome
    · rw [pathEntry.eq_def, if_neg hemp] at hsome
      simp only [Option.some.injEq, Prod.mk.injEq] at hsome
      obtain ⟨hp, hc⟩ := hsome
      subst hp
      exact ⟨rfl, fun hnil => hemp (by rw [hnil]; rfl), hc.symm⟩

/-- Claim C9.  The root carries the literal label `root` and the upward walk
of `get_paths` stops at the first `root`-labelled ancestor, so no returned
prefix path ever contains `root`; consequently, on `Troot` (where `root` is a
genuine item) the occurrences of `root` above the chain node of `a` are
silently dropped — `a`'s conditional database is empty and the pair
`{root, a}` (true support 2 ≥ floor 2) is never mined. -/
theorem c9_theorem :
    (∀ (tr : FPTree) (item : String) (p : List String) (c : Nat),
        (p, c) ∈ getPaths tr item → "root" ∉ p) ∧
    trueSupport Troot ["root", "a"] = 2 ∧
    getPaths (buildTree Troot 2 none) "a" = [] ∧
    (fpGrowth szZero 9 Troot 2 [] false).1 = [(["root"], 2), (["a"], 2)] := by
  refine ⟨?_, by decide, by decide, by decide⟩
  intro tr item p c hmem
  obtain ⟨e, _, idx, _, hp, _, _⟩ := mem_getPaths tr item p c hmem
  subst hp
  rw [List.mem_reverse]
  exact root_not_mem_climbAux tr tr.nodes.length idx

/-- Witness for the universal part of C9 at a concrete built tree. -/
theorem c9_witness : "root" ∉ ["a"] :=
  c9_theorem.1 (buildTree [["a", "b"], ["a", "b"]] 2 none) "b" ["a"] 2 (by decide)

/-- Splitting `counterAdd` on an absent key. -/
theorem counterAdd_of_not_mem (l : List (String × Nat)) (y : String)
    (h : l.any (fun pr => pr.1 = y) = false) : counterAdd l y = l ++ [(y, 1)] := by
  simp [counterAdd, h]

/-- Splitting `counterAdd` on a present key. -/
theorem counterAdd_of_mem (l : List (String × Nat)) (y : String)
    (h : l.any (fun pr => pr.1 = y) = true) :
    counterAdd l y = l.map (fun pr => if pr.1 = y then (pr.1, pr.2 + 1) else pr) := by
  simp [counterAdd, h]

/-- A key that occurs in no entry looks up to 0. -/
theorem lookupCnt_eq_zero (l : List (String × Nat)) (x : String)
    (h : l.any (fun pr => pr.1 = x) = false) : lookupCnt l x = 0 := by
  induction l with
  | nil => rfl
  | cons pr rest ih =>
    simp only [List.any_cons, Bool.or_eq_false_iff] at h
    have hpr : ¬ pr.1 = x := by simpa using h.1
    simp [lookupCnt, hpr, ih h.2]

/-- Lookup distributes over append through presence of the key on the left. -/
theorem lookupCnt_append (l l' : List (String × Nat)) (x : String) :
    lookupCnt (l ++ l') x =
      if l.any (fun pr => pr.1 = x) = true then lookupCnt l x else lookupCnt l' x := by
  induction l with
  | nil => simp [lookupCnt]
  | cons pr rest ih =>
    by_cases hpr : pr.1 = x
    · simp [lookupCnt, hpr]
    · have hd : (decide (pr.1 = x)) = false := by simp [hpr]
      simp only [List.cons_append, lookupCnt, ih, List.any_cons]
      rw [if_neg hpr, hd, Bool.false_or, if_neg hpr]
      exact ih

/-- Bumping entries of another key leaves a lookup unchanged. -/
theorem lookupCnt_map_bump_ne (l : List (String × Nat)) (x y : String) (hxy : x ≠ y) :
    lookupCnt (l.map (fun pr => if pr.1 = y then (pr.1, pr.2 + 1) else pr)) x =
      lookupCnt l x := by
  induction l with
  | nil => rfl
  | cons pr rest ih =>
    by_cases hpy : pr.1 = y
    · have hyx : ¬ y = x := fun h => hxy h.symm
      simp [lookupCnt, hpy, hyx, ih]
    · by_cases hpx : pr.1 = x
      · simp [lookupCnt, hpy, hpx, hxy]
      · simp [lookupCnt, hpy, hpx, ih]

/-- Bumping entries of the looked-up key adds one when the key is present. -/
theorem lookupCnt_map_bump_eq (l : List (String × Nat)) (x : String) :
    lookupCnt (l.map (fun pr => if pr.1 = x then (pr.1, pr.2 + 1) else pr)) x =
      lookupCnt l x + (if l.any (fun pr => pr.1 = x) = true then 1 else 0) := by
  induction l with
  | nil => rfl
  | cons pr rest ih =>
    by_cases hpx : pr.1 = x
    · simp [lookupCnt, hpx]
    · by_cases hany : (rest.any fun q => q.1 = x) = true
      · simp [lookupCnt, hpx, ih, hany]
      · simp [lookupCnt, hpx, ih, hany]

/-- Effect of one `Counter` update on a lookup. -/
theorem lookupCnt_counterAdd (l : List (String × Nat)) (x y : String) :
    lookupCnt (counterAdd l y) x = lookupCnt l x + (if x = y then 1 else 0) := by
  by_cases hany : l.any (fun pr => pr.1 = y) = true
  · rw [counterAdd_of_mem l y hany]
    by_cases hxy : x = y
    · subst hxy; simp [lookupCnt_map_bump_eq, hany]
    · simp [lookupCnt_map_bump_ne l x y hxy, hxy]
  · have hany' : l.any (fun pr => pr.1 = y) = false := by
      cases h : l.any (fun pr => pr.1 = y) with
      | false => rfl
      | true => exact absurd h hany
    rw [counterAdd_of_not_mem l y hany', lookupCnt_append]
    by_cases hxy : x = y
    · subst hxy
      simp [hany', lookupCnt_eq_zero l x hany', lookupCnt]
    · by_cases hlx : l.any (fun pr => pr.1 = x) = true
      · simp [hlx, hxy]
      · have hlx' : l.any (fun pr => pr.1 = x) = false := by
          cases h : l.any (fun pr => pr.1 = x) with
          | false => rfl
          | true => exact absurd h hlx
        have h0 : lookupCnt l x = 0 := lookupCnt_eq_zero l x hlx'
        have hyx : ¬ (y = x) := fun h => hxy h.symm
        simp [hlx', h0, lookupCnt, hyx, hxy]

/-- Folding one transaction into the Counter adds its occurrence counts. -/
theorem lookupCnt_foldl_tx (t : List String) :
    ∀ (acc : List (String × Nat)) (x : String),
      lookupCnt (t.foldl counterAdd acc) x = lookupCnt acc x + t.count x := by
  induction t with
  | nil => intro acc x; simp
  | cons y rest ih =>
    intro acc x
    simp only [List.foldl_cons, ih, lookupCnt_counterAdd]
    rw [List.count_cons]
    by_cases hxy : x = y
    · subst hxy; simp; omega
    · have hyx : ¬ (y = x) := fun h => hxy h.symm
      simp [hxy, hyx]

/-- The Counter of `FPTree.__init__` computes exactly the total occurrence
count of every item (each repeat inside one transaction counted). -/
theorem lookupCnt_itemCounts (T : List (List String)) (x : String) :
    lookupCnt (itemCounts T) x = occCount x T := by
  suffices h : ∀ (acc : List (String × Nat)),
      lookupCnt (T.foldl (fun acc t => t.foldl counterAdd acc) acc) x =
        lookupCnt acc x + occCount x T by
    simpa [itemCounts, lookupCnt] using h []
  induction T with
  | nil => intro acc; simp [occCount]
  | cons t rest ih =>
    intro acc
    simp only [List.foldl_cons, ih, lookupCnt_foldl_tx, occCount, List.map_cons, List.sum_cons]
    omega

/-- Claim C10.  Frequency counting counts every occurrence (no deduplication
inside a transaction): the Counter equals the total occurrence count, and on
`Tdouble = [[a,a],[b]]` the single-item pattern `{a}` is reported with
support 2 although only one transaction contains `a`. -/
theorem c10_theorem :
    (∀ (T : List (List String)) (x : String), lookupCnt (itemCounts T) x = occCount x T) ∧
    (["a"], 2) ∈ (fpGrowth szZero 9 Tdouble 1 [] false).1 ∧
    trueSupport Tdouble ["a"] = 1 ∧
    occCount "a" Tdouble = 2 := by
  exact ⟨fun T x => lookupCnt_itemCounts T x, by decide, by decide, by decide⟩

/-- The maximum of a concatenation is the maximum of the two maxima. -/
theorem natMaxList_append (a b : List Nat) :
    natMaxList (a ++ b) = max (natMaxList a) (natMaxList b) := by
  induction a with
  | nil => simp [natMaxList]
  | cons x xs ih =>
    show max x (natMaxList (xs ++ b)) = max (max x (natMaxList xs)) (natMaxList b)
    rw [ih, Nat.max_assoc]

/-- Spec aggregation distributes over concatenation of tree lists. -/
theorem statsOf_append (sz : FPNode → Nat) (a b : List FPTree) :
    statsOf sz (a ++ b) = msCombine (statsOf sz a) (statsOf sz b) := by
  simp [statsOf, msCombine, natMaxList_append]

/-- Merging accounting records is associative. -/
theorem msCombine_assoc (a b c : MemStats) :
    msCombine (msCombine a b) c = msCombine a (msCombine b c) := by
  simp [msCombine, Nat.add_assoc, Nat.max_assoc]

/-- The empty aggregate is a right identity for merging. -/
theorem msCombine_zero (a : MemStats) : msCombine a ⟨0, 0, 0, 0⟩ = a := by
  cases a; simp [msCombine]

/-- Stats component of the mining fold: starting from `ms`, folding the
header entries merges in exactly the aggregates of the trees built by each
entry's conditional recursion, in order. -/
theorem fpStep_fold_stats (sz : FPNode → Nat) (f : Nat) (tree : FPTree) (s : Int)
    (pref : List String)
    (hrec : ∀ (T' : List (List String)) (p' : List String),
      (fpGrowth sz f T' s p' true).2 = statsOf sz (callTrees f T' s)) :
    ∀ (items : List (String × Nat × List Nat)) (pats : List (List String × Nat)) (ms : MemStats),
      ((items.foldl (fpStep tree pref true (fun T' p' => fpGrowth sz f T' s p' true)) (pats, ms)).2) =
        msCombine ms
          (statsOf sz (items.flatMap (fun e =>
            if (getPaths tree e.1).isEmpty then []
            else callTrees f (condTransactions (getPaths tree e.1)) s))) := by
  intro items
  induction items with
  | nil =>
    intro pats ms
    simp only [List.foldl_nil, List.flatMap_nil]
    rw [show statsOf sz [] = ⟨0, 0, 0, 0⟩ from rfl, msCombine_zero]
  | cons e rest ih =>
    intro pats ms
    rw [List.foldl_cons, List.flatMap_cons]
    by_cases he : (getPaths tree e.1).isEmpty = true
    · have hstep : fpStep tree pref true (fun T' p' => fpGrowth sz f T' s p' true) (pats, ms) e =
          (dictInsert pats (pref ++ [e.1]) e.2.1, ms) := by
        simp [fpStep, he]
      rw [hstep, ih, if_pos he, List.nil_append]
    · have hstep : fpStep tree pref true (fun T' p' => fpGrowth sz f T' s p' true) (pats, ms) e =
          (dictUpdate (dictInsert pats (pref ++ [e.1]) e.2.1)
            (fpGrowth sz f (condTransactions (getPaths tree e.1)) s (pref ++ [e.1]) true).1,
           msCombine ms
             (fpGrowth sz f (condTransactions (getPaths tree e.1)) s (pref ++ [e.1]) true).2) := by
        simp [fpStep, he, msCombine]
      rw [hstep, ih, hrec, if_neg he, statsOf_append, msCombine_assoc]

/-- Claim C7.  With accounting enabled, the record returned by `fp_growth`
satisfies: trees-built equals the number of invocations in the call tree
(each invocation, terminal ones included, builds exactly one tree);
max-tree-nodes and max-tree-depth are the maxima over all those trees; and
the memory total is the sum — stated against the spec-side list of all trees
built by the call and its recursive descendants, for every fuel. -/
theorem c7_theorem (sz : FPNode → Nat) :
    ∀ (fuel : Nat) (T : List (List String)) (s : Int) (pref : List String),
      (fpGrowth sz fuel T s pref true).2 = statsOf sz (callTrees fuel T s) := by
  intro fuel
  induction fuel with
  | zero =>
    intro T s pref
    simp [fpGrowth, callTrees, statsOf, natMaxList]
  | succ f ih =>
    intro T s pref
    simp only [fpGrowth, callTrees]
    by_cases hemp : (buildTree T s none).frequent_items.isEmpty = true
    · rw [if_pos hemp, if_pos hemp]
      simp [statsOf, natMaxList]
    · rw [if_neg hemp, if_neg hemp]
      rw [fpStep_fold_stats sz f (buildTree T s none) s pref (fun T' p' => ih T' s p')]
      rw [show statsOf sz (buildTree T s none ::
            (sortAsc (fun e => e.2.1) (buildTree T s none).header_table).flatMap (fun e =>
              if (getPaths (buildTree T s none) e.1).isEmpty then []
              else callTrees f (condTransactions (getPaths (buildTree T s none) e.1)) s)) =
          msCombine ⟨1, (buildTree T s none).num_nodes, (buildTree T s none).max_depth,
              treeMemory sz (buildTree T s none)⟩
            (statsOf sz
              ((sortAsc (fun e => e.2.1) (buildTree T s none).header_table).flatMap (fun e =>
                if (getPaths (buildTree T s none) e.1).isEmpty then []
                else callTrees f (condTransactions (getPaths (buildTree T s none) e.1)) s)))
          from by simp [statsOf, msCombine, natMaxList, Nat.add_comm]]
      simp

/-- A contiguous run stays contiguous after dropping a left part. -/
theorem infix_drop_left (A B s : List String) (h : (A ++ B) <:+: s) : B <:+: s := by
  obtain ⟨u, v, huv⟩ := h
  exact ⟨u ++ A, v, by rw [← huv]; simp [List.append_assoc]⟩

/-- A contiguous run stays contiguous after dropping a right part. -/
theorem infix_drop_right (A B s : List String) (h : (A ++ B) <:+: s) : A <:+: s := by
  obtain ⟨u, v, huv⟩ := h
  exact ⟨u, B ++ v, by rw [← huv]; simp [List.append_assoc]⟩

/-- Bumping one node's count changes no label, parent or child map. -/
theorem incrementNode_preserve (tr : FPTree) (i j : Nat) :
    itemOf (incrementNode tr i) j = itemOf tr j ∧
    parentOf (incrementNode tr i) j = parentOf tr j ∧
    childrenOf (incrementNode tr i) j = childrenOf tr j := by
  unfold incrementNode
  cases hg : tr.nodes.get? i with
  | none => exact ⟨rfl, rfl, rfl⟩
  | some nd =>
    have hi : i < tr.nodes.length := by
      by_contra hlt
      rw [List.get?_eq_none.mpr (Nat.le_of_not_lt hlt)] at hg
      cases hg
    by_cases hij : i = j
    · subst hij
      unfold itemOf parentOf childrenOf
      rw [List.get?_set_eq_of_lt _ hi, hg]
      exact ⟨rfl, rfl, rfl⟩
    · unfold itemOf parentOf childrenOf
      rw [List.get?_set_ne _ _ hij]
      exact ⟨rfl, rfl, rfl⟩

/-- Bumping one node's count keeps the arena size. -/
theorem incrementNode_len (tr : FPTree) (i : Nat) :
    (incrementNode tr i).nodes.length = tr.nodes.length := by
  unfold incrementNode
  cases tr.nodes.get? i with
  | none => rfl
  | some nd => simp

/-- Bumping one node's count leaves the header table untouched. -/
theorem incrementNode_header (tr : FPTree) (i : Nat) :
    (incrementNode tr i).header_table = tr.header_table := by
  unfold incrementNode
  cases tr.nodes.get? i <;> rfl

/-- Bumping one node's count leaves the frequent-item dict untouched. -/
theorem incrementNode_freq (tr : FPTree) (i : Nat) :
    (incrementNode tr i).frequent_items = tr.frequent_items := by
  unfold incrementNode
  cases tr.nodes.get? i <;> rfl

/-- Adding a child edge changes no label or parent reference. -/
theorem addChildEdge_preserve (tr : FPTree) (i : Nat) (it : String) (c j : Nat) :
    itemOf (addChildEdge tr i it c) j = itemOf tr j ∧
    parentOf (addChildEdge tr i it c) j = parentOf tr j := by
  unfold addChildEdge
  cases hg : tr.nodes.get? i with
  | none => exact ⟨rfl, rfl⟩
  | some nd =>
    have hi : i < tr.nodes.length := by
      by_contra hlt
      rw [List.get?_eq_none.mpr (Nat.le_of_not_lt hlt)] at hg
      cases hg
    by_cases hij : i = j
    · subst hij
      unfold itemOf parentOf
      rw [List.get?_set_eq_of_lt _ hi, hg]
      exact ⟨rfl, rfl⟩
    · unfold itemOf parentOf
      rw [List.get?_set_ne _ _ hij]
      exact ⟨rfl, rfl⟩

/-- Adding a child edge at another node leaves a child map untouched. -/
theorem addChildEdge_children_ne (tr : FPTree) (i : Nat) (it : String) (c j : Nat)
    (hij : i ≠ j) : childrenOf (addChildEdge tr i it c) j = childrenOf tr j := by
  unfold addChildEdge
  cases hg : tr.nodes.get? i with
  | none => rfl
  | some nd =>
    unfold childrenOf
    rw [List.get?_set_ne _ _ hij]

/-- Adding a child edge appends it to that node's child map. -/
theorem addChildEdge_children_self (tr : FPTree) (i : Nat) (it : String) (c : Nat)
    (hi : i < tr.nodes.length) :
    childrenOf (addChildEdge tr i it c) i = childrenOf tr i ++ [(it, c)] := by
  unfold addChildEdge
  cases hg : tr.nodes.get? i with
  | none =>
    have hle : tr.nodes.length ≤ i := List.get?_eq_none.mp hg
    exact absurd hi (Nat.not_lt.mpr hle)
  | some nd =>
    unfold childrenOf
    rw [List.get?_set_eq_of_lt _ hi, hg]

/-- Adding a child edge keeps the arena size. -/
theorem addChildEdge_len (tr : FPTree) (i : Nat) (it : String) (c : Nat) :
    (addChildEdge tr i it c).nodes.length = tr.nodes.length := by
  unfold addChildEdge
  cases tr.nodes.get? i with
  | none => rfl
  | some nd => simp

/-- Adding a child edge leaves the header table untouched. -/
theorem addChildEdge_header (tr : FPTree) (i : Nat) (it : String) (c : Nat) :
    (addChildEdge tr i it c).header_table = tr.header_table := by
  unfold addChildEdge
  cases tr.nodes.get? i <;> rfl

/-- Adding a child edge leaves the frequent-item dict untouched. -/
theorem addChildEdge_freq (tr : FPTree) (i : Nat) (it : String) (c : Nat) :
    (addChildEdge tr i it c).frequent_items = tr.frequent_items := by
  unfold addChildEdge
  cases tr.nodes.get? i <;> rfl

/-- The header update touches neither the arena nor the frequent dict. -/
theorem headerAppend_nodes (tr : FPTree) (it : String) (n : Nat) :
    (headerAppend tr it n).nodes = tr.nodes := by
  unfold headerAppend
  by_cases h : tr.header_table.any (fun e => e.1 = it) = true <;> simp [h]

/-- The header update keeps the frequent dict. -/
theorem headerAppend_freq (tr : FPTree) (it : String) (n : Nat) :
    (headerAppend tr it n).frequent_items = tr.frequent_items := by
  unfold headerAppend
  by_cases h : tr.header_table.any (fun e => e.1 = it) = true <;> simp [h]

/-- The upward walk is determined by the labels and parent references below
the starting index, provided parents strictly decrease. -/
theorem climbAux_congr (tr tr' : FPTree) (N : Nat)
    (hagree : ∀ j, j < N → itemOf tr' j = itemOf tr j ∧ parentOf tr' j = parentOf tr j)
    (hdec : ∀ j, 1 ≤ j → j < N → ∃ p, parentOf tr j = some p ∧ p < j)
    (hroot : parentOf tr 0 = none) :
    ∀ (fuel idx : Nat), idx < N → climbAux tr' fuel idx = climbAux tr fuel idx := by
  intro fuel
  induction fuel with
  | zero => intro idx _; rfl
  | succ f ih =>
    intro idx hidx
    unfold climbAux
    rw [(hagree idx hidx).2]
    cases hp : parentOf tr idx with
    | none => rfl
    | some p =>
      have hplt : p < N := by
        rcases Nat.eq_zero_or_pos idx with h0 | h1
        · subst h0; rw [hroot] at hp; cases hp
        · obtain ⟨p', hp', hlt⟩ := hdec idx h1 hidx
          rw [hp] at hp'
          cases hp'
          omega
      show (if itemOf tr' p = "root" then [] else itemOf tr' p :: climbAux tr' f p) =
        (if itemOf tr p = "root" then [] else itemOf tr p :: climbAux tr f p)
      rw [(hagree p hplt).1, ih p hplt]

/-- The climb of a node whose parent is `n` is exactly `extPath` at `n`. -/
theorem climbAux_succ_ext (tr : FPTree) (c n : Nat) (hpar : parentOf tr c = some n)
    (f : Nat) : climbAux tr (f + 1) c = extPath tr f n := by
  unfold climbAux extPath
  rw [hpar]

/-- Anchor propagation: descending into the child holding the head item
leaves a valid anchor for the remaining items. -/
theorem Anchor_step (tr : FPTree) (S : List (List String)) (n c : Nat) (item : String)
    (rest : List String) (hpar : parentOf tr c = some n) (hitem : itemOf tr c = item)
    (ha : Anchor tr n (item :: rest) S) : Anchor tr c rest S := by
  obtain ⟨s, hs, hinf⟩ := ha
  refine ⟨s, hs, fun fuel => ?_⟩
  unfold extPath
  by_cases hc : itemOf tr c = "root"
  · simp only [hc, if_true, List.reverse_nil, List.nil_append]
    have h1 : (item :: rest) <:+: s := infix_drop_left _ _ _ (hinf 0)
    exact infix_drop_left [item] rest s (by simpa using h1)
  · simp only [hc, if_false]
    cases fuel with
    | zero =>
      have h1 : (item :: rest) <:+: s := infix_drop_left _ _ _ (hinf 0)
      rw [hitem]
      simpa [climbAux] using h1
    | succ g =>
      rw [climbAux_succ_ext tr c n hpar g, hitem]
      simpa [List.append_assoc] using hinf g

/-- Every new node hung below an anchored position satisfies the
path-contiguity invariant. -/
theorem pathIncl_of_anchor (tr : FPTree) (S : List (List String)) (n c : Nat)
    (item : String) (rest : List String) (hpar : parentOf tr c = some n)
    (hitem : itemOf tr c = item) (ha : Anchor tr n (item :: rest) S) :
    ∀ fuel, ∃ s ∈ S, ((climbAux tr fuel c).reverse ++ [itemOf tr c]) <:+: s := by
  obtain ⟨s, hs, hinf⟩ := ha
  intro fuel
  refine ⟨s, hs, ?_⟩
  rw [hitem]
  cases fuel with
  | zero =>
    have h1 : (item :: rest) <:+: s := infix_drop_left _ _ _ (hinf 0)
    have h2 : ([item] ++ rest) <:+: s := by simpa using h1
    simpa [climbAux] using infix_drop_right [item] rest s h2
  | succ g =>
    rw [climbAux_succ_ext tr c n hpar g]
    have hg' : (((extPath tr g n).reverse ++ [item]) ++ rest) <:+: s := by
      simpa [List.append_assoc] using hinf g
    exact infix_drop_right _ _ _ hg'


/-- Projection equations for the small tree operations. -/
theorem appendNode_nodes (tr : FPTree) (nd : FPNode) :
    (appendNode tr nd).nodes = tr.nodes ++ [nd] := rfl

/-- Appending a node leaves the header table unchanged. -/
theorem appendNode_header (tr : FPTree) (nd : FPNode) :
    (appendNode tr nd).header_table = tr.header_table := rfl

/-- Appending a node leaves the frequent dict unchanged. -/
theorem appendNode_freq (tr : FPTree) (nd : FPNode) :
    (appendNode tr nd).frequent_items = tr.frequent_items := rfl

/-- Bumping the node counter leaves the arena unchanged. -/
theorem bumpNumNodes_nodes (tr : FPTree) : (bumpNumNodes tr).nodes = tr.nodes := rfl

/-- Bumping the node counter leaves the header table unchanged. -/
theorem bumpNumNodes_header (tr : FPTree) :
    (bumpNumNodes tr).header_table = tr.header_table := rfl

/-- Bumping the node counter leaves the frequent dict unchanged. -/
theorem bumpNumNodes_freq (tr : FPTree) :
    (bumpNumNodes tr).frequent_items = tr.frequent_items := rfl

/-- Updating the depth tracker leaves the arena unchanged. -/
theorem bumpDepth_nodes (tr : FPTree) (d : Nat) : (bumpDepth tr d).nodes = tr.nodes := rfl

/-- Updating the depth tracker leaves the header table unchanged. -/
theorem bumpDepth_header (tr : FPTree) (d : Nat) :
    (bumpDepth tr d).header_table = tr.header_table := rfl

/-- Updating the depth tracker leaves the frequent dict unchanged. -/
theorem bumpDepth_freq (tr : FPTree) (d : Nat) :
    (bumpDepth tr d).frequent_items = tr.frequent_items := rfl

/-- A label lookup depends only on the arena. -/
theorem itemOf_ext (tr tr' : FPTree) (h : tr'.nodes = tr.nodes) (j : Nat) :
    itemOf tr' j = itemOf tr j := by
  unfold itemOf; rw [h]

/-- A parent lookup depends only on the arena. -/
theorem parentOf_ext (tr tr' : FPTree) (h : tr'.nodes = tr.nodes) (j : Nat) :
    parentOf tr' j = parentOf tr j := by
  unfold parentOf; rw [h]

/-- A child-map lookup depends only on the arena. -/
theorem childrenOf_ext (tr tr' : FPTree) (h : tr'.nodes = tr.nodes) (j : Nat) :
    childrenOf tr' j = childrenOf tr j := by
  unfold childrenOf; rw [h]

/-- The upward walk depends only on the arena. -/
theorem climbAux_ext (tr tr' : FPTree) (h : tr'.nodes = tr.nodes) :
    ∀ (f i : Nat), climbAux tr' f i = climbAux tr f i := by
  intro f
  induction f with
  | zero => intro i; rfl
  | succ g ih =>
    intro i
    unfold climbAux
    rw [parentOf_ext tr tr' h]
    cases hp : parentOf tr i with
    | none => rfl
    | some p =>
      show (if itemOf tr' p = "root" then [] else itemOf tr' p :: climbAux tr' g p) =
        (if itemOf tr p = "root" then [] else itemOf tr p :: climbAux tr g p)
      rw [itemOf_ext tr tr' h, ih p]

/-- `extPath` depends only on the arena. -/
theorem extPath_ext (tr tr' : FPTree) (h : tr'.nodes = tr.nodes) (f i : Nat) :
    extPath tr' f i = extPath tr f i := by
  unfold extPath
  rw [itemOf_ext tr tr' h, climbAux_ext tr tr' h]

/-- Anchors depend only on the arena. -/
theorem Anchor_ext (tr tr' : FPTree) (S : List (List String)) (idx : Nat)
    (rest : List String) (h : tr'.nodes = tr.nodes) (ha : Anchor tr idx rest S) :
    Anchor tr' idx rest S := by
  obtain ⟨s, hs, hf⟩ := ha
  exact ⟨s, hs, fun fuel => by rw [extPath_ext tr tr' h]; exact hf fuel⟩

/-- The whole invariant transfers along equal arenas, headers and dicts. -/
theorem TreeInv_ext (tr tr' : FPTree) (S : List (List String))
    (hn : tr'.nodes = tr.nodes) (hh : tr'.header_table = tr.header_table)
    (hf : tr'.frequent_items = tr.frequent_items) (h : TreeInv tr S) : TreeInv tr' S := by
  constructor
  · rw [hn]; exact h.lenPos
  · rw [itemOf_ext tr tr' hn]; exact h.rootItem
  · rw [parentOf_ext tr tr' hn]; exact h.rootPar
  · intro idx h1 h2
    rw [hn] at h2
    obtain ⟨p, hp, hplt⟩ := h.parentDec idx h1 h2
    exact ⟨p, by rw [parentOf_ext tr tr' hn]; exact hp, hplt⟩
  · intro idx pr hpr
    rw [childrenOf_ext tr tr' hn] at hpr
    obtain ⟨a, b, c, d⟩ := h.childCoh idx pr hpr
    exact ⟨a, by rw [hn]; exact b, by rw [itemOf_ext tr tr' hn]; exact c,
      by rw [parentOf_ext tr tr' hn]; exact d⟩
  · intro idx h1 h2
    rw [hn] at h2
    rw [hh, itemOf_ext tr tr' hn]
    exact h.nodeHdr idx h1 h2
  · intro e he idx hidx
    rw [hh] at he
    obtain ⟨a, b, c⟩ := h.hdrChain e he idx hidx
    exact ⟨a, by rw [hn]; exact b, by rw [itemOf_ext tr tr' hn]; exact c⟩
  · intro e he
    rw [hh] at he
    rw [hf]
    exact h.hdrCount e he
  · intro idx h1 h2 fuel
    rw [hn] at h2
    rw [climbAux_ext tr tr' hn, itemOf_ext tr tr' hn]
    exact h.pathInf idx h1 h2 fuel
  · rw [hh]; exact h.hdrNodup

/-- The upward walk ignores count bumps (given decreasing parents). -/
theorem climbAux_incrementNode (tr : FPTree) (i : Nat) (S : List (List String))
    (h : TreeInv tr S) :
    ∀ (f j : Nat), j < tr.nodes.length → climbAux (incrementNode tr i) f j = climbAux tr f j :=
  climbAux_congr tr (incrementNode tr i) tr.nodes.length
    (fun j _ => ⟨(incrementNode_preserve tr i j).1, (incrementNode_preserve tr i j).2.1⟩)
    h.parentDec h.rootPar

/-- The invariant survives a count bump. -/
theorem TreeInv_incrementNode (tr : FPTree) (S : List (List String)) (i : Nat)
    (h : TreeInv tr S) : TreeInv (incrementNode tr i) S := by
  have hpres := incrementNode_preserve tr i
  have hlen := incrementNode_len tr i
  have hhd := incrementNode_header tr i
  have hfq := incrementNode_freq tr i
  constructor
  · rw [hlen]; exact h.lenPos
  · rw [(hpres 0).1]; exact h.rootItem
  · rw [(hpres 0).2.1]; exact h.rootPar
  · intro idx h1 h2
    rw [hlen] at h2
    obtain ⟨p, hp, hplt⟩ := h.parentDec idx h1 h2
    exact ⟨p, by rw [(hpres idx).2.1]; exact hp, hplt⟩
  · intro idx pr hpr
    rw [(hpres idx).2.2] at hpr
    obtain ⟨a, b, c, d⟩ := h.childCoh idx pr hpr
    exact ⟨a, by rw [hlen]; exact b, by rw [(hpres pr.2).1]; exact c,
      by rw [(hpres pr.2).2.1]; exact d⟩
  · intro idx h1 h2
    rw [hlen] at h2
    rw [hhd, (hpres idx).1]
    exact h.nodeHdr idx h1 h2
  · intro e he idx hidx
    rw [hhd] at he
    obtain ⟨a, b, c⟩ := h.hdrChain e he idx hidx
    exact ⟨a, by rw [hlen]; exact b, by rw [(hpres idx).1]; exact c⟩
  · intro e he
    rw [hhd] at he
    rw [hfq]
    exact h.hdrCount e he
  · intro idx h1 h2 fuel
    rw [hlen] at h2
    rw [climbAux_incrementNode tr i S h fuel idx h2, (hpres idx).1]
    exact h.pathInf idx h1 h2 fuel
  · rw [hhd]; exact h.hdrNodup

/-- Anchors survive a count bump. -/
theorem Anchor_incrementNode (tr : FPTree) (S : List (List String)) (i idx : Nat)
    (rest : List String) (h : TreeInv tr S) (hidx : idx < tr.nodes.length)
    (ha : Anchor tr idx rest S) : Anchor (incrementNode tr i) idx rest S := by
  obtain ⟨s, hs, hf⟩ := ha
  refine ⟨s, hs, fun fuel => ?_⟩
  have he : extPath (incrementNode tr i) fuel idx = extPath tr fuel idx := by
    unfold extPath
    rw [(incrementNode_preserve tr i idx).1, climbAux_incrementNode tr i S h fuel idx hidx]
  rw [he]
  exact hf fuel

/-- The header update preserves every existing key. -/
theorem headerAppend_any_of (tr : FPTree) (it : String) (n : Nat) (x : String)
    (h : (tr.header_table.any (fun e => e.1 = x)) = true) :
    ((headerAppend tr it n).header_table.any (fun e => e.1 = x)) = true := by
  unfold headerAppend
  by_cases hb : tr.header_table.any (fun e => e.1 = it) = true
  · rw [if_pos hb]
    show (tr.header_table.map
        (fun e => if e.1 = it then (e.1, e.2.1, e.2.2 ++ [n]) else e)).any
        (fun e => e.1 = x) = true
    rw [List.any_eq_true] at h
    obtain ⟨e, he, hx⟩ := h
    have hx' : e.1 = x := by simpa using hx
    refine List.any_eq_true.mpr ⟨_, List.mem_map_of_mem _ he, ?_⟩
    have hkey : ((if e.1 = it then (e.1, e.2.1, e.2.2 ++ [n]) else e) :
        String × Nat × List Nat).1 = x := by
      by_cases hit : e.1 = it
      · rw [if_pos hit]; exact hx'
      · rw [if_neg hit]; exact hx'
    exact decide_eq_true hkey
  · rw [if_neg hb]
    show (tr.header_table ++ [(it, lookupCnt tr.frequent_items it, [n])]).any
      (fun e => e.1 = x) = true
    rw [List.any_append, h, Bool.true_or]

/-- After the header update the inserted item always has an entry. -/
theorem headerAppend_any_self (tr : FPTree) (it : String) (n : Nat) :
    ((headerAppend tr it n).header_table.any (fun e => e.1 = it)) = true := by
  unfold headerAppend
  by_cases hb : tr.header_table.any (fun e => e.1 = it) = true
  · rw [if_pos hb]
    show (tr.header_table.map
        (fun e => if e.1 = it then (e.1, e.2.1, e.2.2 ++ [n]) else e)).any
        (fun e => e.1 = it) = true
    rw [List.any_eq_true] at hb
    obtain ⟨e, he, hx⟩ := hb
    have hx' : e.1 = it := by simpa using hx
    refine List.any_eq_true.mpr ⟨_, List.mem_map_of_mem _ he, ?_⟩
    have hkey : ((if e.1 = it then (e.1, e.2.1, e.2.2 ++ [n]) else e) :
        String × Nat × List Nat).1 = it := by
      rw [if_pos hx']
      exact hx'
    exact decide_eq_true hkey
  · rw [if_neg hb]
    show (tr.header_table ++ [(it, lookupCnt tr.frequent_items it, [n])]).any
      (fun e => e.1 = it) = true
    rw [List.any_append]
    simp

/-- Case analysis on the entries of an updated header table. -/
theorem headerAppend_mem (tr : FPTree) (it : String) (n : Nat)
    (e' : String × Nat × List Nat) (h : e' ∈ (headerAppend tr it n).header_table) :
    (∃ e ∈ tr.header_table,
      (e.1 = it ∧ e' = (e.1, e.2.1, e.2.2 ++ [n])) ∨ (¬ e.1 = it ∧ e' = e)) ∨
    e' = (it, lookupCnt tr.frequent_items it, [n]) := by
  unfold headerAppend at h
  by_cases hb : tr.header_table.any (fun e => e.1 = it) = true
  · rw [if_pos hb] at h
    have h' : e' ∈ tr.header_table.map
        (fun e => if e.1 = it then (e.1, e.2.1, e.2.2 ++ [n]) else e) := h
    rw [List.mem_map] at h'
    obtain ⟨e, he, hfe⟩ := h'
    left
    refine ⟨e, he, ?_⟩
    by_cases hit : e.1 = it
    · left
      rw [if_pos hit] at hfe
      exact ⟨hit, hfe.symm⟩
    · right
      rw [if_neg hit] at hfe
      exact ⟨hit, hfe.symm⟩
  · rw [if_neg hb] at h
    have h' : e' ∈ tr.header_table ++ [(it, lookupCnt tr.frequent_items it, [n])] := h
    rw [List.mem_append] at h'
    rcases h' with h' | h'
    · left
      refine ⟨e', h', Or.inr ⟨?_, rfl⟩⟩
      intro hit
      exact hb (List.any_eq_true.mpr ⟨e', h', decide_eq_true hit⟩)
    · right
      simpa using h'

/-- The new-node step only reshapes the arena of the intermediate tree. -/
theorem newNodeTree_get? (tr : FPTree) (n : Nat) (it : String) (j : Nat) :
    (newNodeTree tr n it).nodes.get? j =
      (addChildEdge (appendNode tr ⟨it, 1, some n, []⟩) n it tr.nodes.length).nodes.get? j := by
  unfold newNodeTree
  rw [headerAppend_nodes, bumpNumNodes_nodes]

/-- The new-node step grows the arena by exactly one node. -/
theorem newNodeTree_len (tr : FPTree) (n : Nat) (it : String) :
    (newNodeTree tr n it).nodes.length = tr.nodes.length + 1 := by
  unfold newNodeTree
  rw [headerAppend_nodes]
  show (addChildEdge (appendNode tr ⟨it, 1, some n, []⟩) n it tr.nodes.length).nodes.length = _
  rw [addChildEdge_len, appendNode_nodes]
  simp

/-- The new-node step keeps the frequent dict. -/
theorem newNodeTree_freq (tr : FPTree) (n : Nat) (it : String) :
    (newNodeTree tr n it).frequent_items = tr.frequent_items := by
  unfold newNodeTree
  rw [headerAppend_freq]
  show (addChildEdge (appendNode tr ⟨it, 1, some n, []⟩) n it tr.nodes.length).frequent_items = _
  rw [addChildEdge_freq, appendNode_freq]

/-- The new-node step's header table is the header update applied to the old
header table and dict. -/
theorem newNodeTree_header (tr : FPTree) (n : Nat) (it : String) :
    (newNodeTree tr n it).header_table =
      (if tr.header_table.any (fun e => e.1 = it) = true then
        tr.header_table.map
          (fun e => if e.1 = it then (e.1, e.2.1, e.2.2 ++ [tr.nodes.length]) else e)
      else
        tr.header_table ++ [(it, lookupCnt tr.frequent_items it, [tr.nodes.length])]) := by
  unfold newNodeTree headerAppend
  have hh : (bumpNumNodes
      (addChildEdge (appendNode tr ⟨it, 1, some n, []⟩) n it tr.nodes.length)).header_table =
      tr.header_table := by
    rw [bumpNumNodes_header, addChildEdge_header, appendNode_header]
  have hf : (bumpNumNodes
      (addChildEdge (appendNode tr ⟨it, 1, some n, []⟩) n it tr.nodes.length)).frequent_items =
      tr.frequent_items := by
    rw [bumpNumNodes_freq, addChildEdge_freq, appendNode_freq]
  rw [hh, hf]
  by_cases hb : tr.header_table.any (fun e => e.1 = it) = true
  · rw [if_pos hb, if_pos hb]
  · rw [if_neg hb, if_neg hb]

/-- Labels and parents of existing nodes survive the new-node step. -/
theorem newNodeTree_preserve (tr : FPTree) (n : Nat) (it : String) (j : Nat)
    (hj : j < tr.nodes.length) :
    itemOf (newNodeTree tr n it) j = itemOf tr j ∧
    parentOf (newNodeTree tr n it) j = parentOf tr j := by
  have hpres := addChildEdge_preserve (appendNode tr ⟨it, 1, some n, []⟩) n it tr.nodes.length j
  constructor
  · unfold itemOf
    rw [newNodeTree_get?]
    unfold itemOf at hpres
    rw [hpres.1]
    rw [appendNode_nodes, List.get?_append hj]
  · unfold parentOf
    rw [newNodeTree_get?]
    unfold parentOf at hpres
    rw [hpres.2]
    rw [appendNode_nodes, List.get?_append hj]

/-- The freshly created node carries the inserted item, count 1, the parent
back-reference, and no children. -/
theorem newNodeTree_new (tr : FPTree) (n : Nat) (it : String) (hn : n < tr.nodes.length) :
    itemOf (newNodeTree tr n it) tr.nodes.length = it ∧
    parentOf (newNodeTree tr n it) tr.nodes.length = some n ∧
    childrenOf (newNodeTree tr n it) tr.nodes.length = [] := by
  have hne : n ≠ tr.nodes.length := by omega
  have hpres := addChildEdge_preserve (appendNode tr ⟨it, 1, some n, []⟩) n it tr.nodes.length
    tr.nodes.length
  have hch := addChildEdge_children_ne (appendNode tr ⟨it, 1, some n, []⟩) n it
    tr.nodes.length tr.nodes.length hne
  have hgl : (appendNode tr ⟨it, 1, some n, []⟩).nodes.get? tr.nodes.length =
      some ⟨it, 1, some n, []⟩ := by
    rw [appendNode_nodes]
    exact List.get?_concat_length tr.nodes ⟨it, 1, some n, []⟩
  refine ⟨?_, ?_, ?_⟩
  · unfold itemOf
    rw [newNodeTree_get?]
    unfold itemOf at hpres
    rw [hpres.1]
    rw [hgl]
  · unfold parentOf
    rw [newNodeTree_get?]
    unfold parentOf at hpres
    rw [hpres.2]
    rw [hgl]
    rfl
  · unfold childrenOf
    rw [newNodeTree_get?]
    unfold childrenOf at hch
    rw [hch]
    rw [hgl]

/-- Child maps away from the attachment point survive the new-node step. -/
theorem newNodeTree_children_ne (tr : FPTree) (n : Nat) (it : String) (j : Nat)
    (hj : j < tr.nodes.length) (hne : n ≠ j) :
    childrenOf (newNodeTree tr n it) j = childrenOf tr j := by
  have hch := addChildEdge_children_ne (appendNode tr ⟨it, 1, some n, []⟩) n it
    tr.nodes.length j hne
  unfold childrenOf
  rw [newNodeTree_get?]
  unfold childrenOf at hch
  rw [hch]
  rw [appendNode_nodes, List.get?_append hj]

/-- At the attachment point the new edge is appended to the child map. -/
theorem newNodeTree_children_self (tr : FPTree) (n : Nat) (it : String)
    (hn : n < tr.nodes.length) :
    childrenOf (newNodeTree tr n it) n = childrenOf tr n ++ [(it, tr.nodes.length)] := by
  have hlt : n < (appendNode tr ⟨it, 1, some n, []⟩).nodes.length := by
    rw [appendNode_nodes]; simp; omega
  have hch := addChildEdge_children_self (appendNode tr ⟨it, 1, some n, []⟩) n it
    tr.nodes.length hlt
  have hnodes : (newNodeTree tr n it).nodes =
      (addChildEdge (appendNode tr ⟨it, 1, some n, []⟩) n it tr.nodes.length).nodes := by
    unfold newNodeTree
    rw [headerAppend_nodes, bumpNumNodes_nodes]
  rw [childrenOf_ext _ _ hnodes, hch]
  have hold : childrenOf (appendNode tr ⟨it, 1, some n, []⟩) n = childrenOf tr n := by
    unfold childrenOf
    rw [appendNode_nodes, List.get?_append hn]
  rw [hold]

/-- Out-of-range indices have no children. -/
theorem childrenOf_out (tr : FPTree) (j : Nat) (h : tr.nodes.length ≤ j) :
    childrenOf tr j = [] := by
  unfold childrenOf
  rw [List.get?_eq_none.mpr h]

/-- The new-node step's header table is the plain header update on the old
tree (arena changes do not feed back into the header computation). -/
theorem newNodeTree_header_eq (tr : FPTree) (n : Nat) (it : String) :
    (newNodeTree tr n it).header_table =
      (headerAppend tr it tr.nodes.length).header_table := by
  rw [newNodeTree_header]
  unfold headerAppend
  by_cases hb : tr.header_table.any (fun e => e.1 = it) = true
  · rw [if_pos hb, if_pos hb]
  · rw [if_neg hb, if_neg hb]

/-- The upward walk of existing nodes ignores the new-node step. -/
theorem climbAux_newNodeTree (tr : FPTree) (S : List (List String)) (n : Nat) (it : String)
    (h : TreeInv tr S) :
    ∀ (f j : Nat), j < tr.nodes.length →
      climbAux (newNodeTree tr n it) f j = climbAux tr f j :=
  climbAux_congr tr (newNodeTree tr n it) tr.nodes.length
    (fun j hj => newNodeTree_preserve tr n it j hj) h.parentDec h.rootPar

/-- Anchors at existing nodes survive the new-node step. -/
theorem Anchor_newNodeTree (tr : FPTree) (S : List (List String)) (n : Nat) (it : String)
    (idx : Nat) (rest : List String) (h : TreeInv tr S) (hidx : idx < tr.nodes.length)
    (ha : Anchor tr idx rest S) : Anchor (newNodeTree tr n it) idx rest S := by
  obtain ⟨s, hs, hf⟩ := ha
  refine ⟨s, hs, fun fuel => ?_⟩
  have he : extPath (newNodeTree tr n it) fuel idx = extPath tr fuel idx := by
    unfold extPath
    rw [(newNodeTree_preserve tr n it idx hidx).1,
      climbAux_newNodeTree tr S n it h fuel idx hidx]
  rw [he]
  exact hf fuel

/-- Existing header keys survive the new-node step. -/
theorem newNodeTree_any_of (tr : FPTree) (n : Nat) (it : String) (x : String)
    (h : (tr.header_table.any (fun e => e.1 = x)) = true) :
    ((newNodeTree tr n it).header_table.any (fun e => e.1 = x)) = true := by
  rw [newNodeTree_header_eq]
  exact headerAppend_any_of tr it tr.nodes.length x h

/-- The inserted item has a header entry after the new-node step. -/
theorem newNodeTree_any_self (tr : FPTree) (n : Nat) (it : String) :
    ((newNodeTree tr n it).header_table.any (fun e => e.1 = it)) = true := by
  rw [newNodeTree_header_eq]
  exact headerAppend_any_self tr it tr.nodes.length

/-- Appending one index to the matching chains leaves the key list of a
header table unchanged. -/
theorem map_fst_chainUpdate (l : List (String × Nat × List Nat)) (it : String) (n : Nat) :
    (l.map (fun e => if e.1 = it then (e.1, e.2.1, e.2.2 ++ [n]) else e)).map (fun e => e.1) =
      l.map (fun e => e.1) := by
  induction l with
  | nil => rfl
  | cons e rest ih =>
    simp only [List.map_cons, ih]
    by_cases hit : e.1 = it
    · rw [if_pos hit]
    · rw [if_neg hit]

/-- Key distinctness of the header table survives the header update: the
chain-append branch keeps the keys, the fresh-entry branch appends a key that
was checked to be absent. -/
theorem headerAppend_nodup (tr : FPTree) (it : String) (n : Nat)
    (h : (tr.header_table.map (fun e => e.1)).Nodup) :
    ((headerAppend tr it n).header_table.map (fun e => e.1)).Nodup := by
  unfold headerAppend
  by_cases hb : tr.header_table.any (fun e => e.1 = it) = true
  · rw [if_pos hb]
    show ((tr.header_table.map
        (fun e => if e.1 = it then (e.1, e.2.1, e.2.2 ++ [n]) else e)).map
        (fun e => e.1)).Nodup
    rw [map_fst_chainUpdate]
    exact h
  · rw [if_neg hb]
    show ((tr.header_table ++ [(it, lookupCnt tr.frequent_items it, [n])]).map
      (fun e => e.1)).Nodup
    rw [List.map_append]
    refine List.Nodup.append h (List.nodup_singleton _) ?_
    intro a ha hmem
    have ha' : a = it := by simpa using hmem
    subst ha'
    rw [List.mem_map] at ha
    obtain ⟨e, he, hek⟩ := ha
    exact hb (List.any_eq_true.mpr ⟨e, he, decide_eq_true hek⟩)

/-- The structural invariant survives the creation of a new child node below
an anchored, in-range parent carrying an item of the frequent dict. -/
theorem TreeInv_newNodeTree (tr : FPTree) (S : List (List String)) (n : Nat) (it : String)
    (rest : List String) (h : TreeInv tr S) (hn : n < tr.nodes.length)
    (hfq : (tr.frequent_items.any (fun pr => pr.1 = it)) = true)
    (ha : Anchor tr n (it :: rest) S) : TreeInv (newNodeTree tr n it) S := by
  have hlen := newNodeTree_len tr n it
  have hfreq := newNodeTree_freq tr n it
  have hnew := newNodeTree_new tr n it hn
  have hpres := fun j hj => newNodeTree_preserve tr n it j hj
  have hroot0 : (0 : Nat) < tr.nodes.length := h.lenPos
  have hN1 : 1 ≤ tr.nodes.length := h.lenPos
  have ha' : Anchor (newNodeTree tr n it) n (it :: rest) S :=
    Anchor_newNodeTree tr S n it n (it :: rest) h hn ha
  constructor
  · rw [hlen]; omega
  · rw [(hpres 0 hroot0).1]; exact h.rootItem
  · rw [(hpres 0 hroot0).2]; exact h.rootPar
  · intro idx h1 h2
    rw [hlen] at h2
    by_cases hix : idx < tr.nodes.length
    · obtain ⟨p, hp, hplt⟩ := h.parentDec idx h1 hix
      exact ⟨p, by rw [(hpres idx hix).2]; exact hp, hplt⟩
    · have hteq : idx = tr.nodes.length := by omega
      subst hteq
      exact ⟨n, hnew.2.1, hn⟩
  · intro idx pr hpr
    by_cases hself : idx = n
    · subst hself
      rw [newNodeTree_children_self tr idx it hn] at hpr
      rw [List.mem_append] at hpr
      rcases hpr with hpr | hpr
      · obtain ⟨a, b, c, d⟩ := h.childCoh idx pr hpr
        refine ⟨a, by rw [hlen]; omega, ?_, ?_⟩
        · rw [(hpres pr.2 b).1]; exact c
        · rw [(hpres pr.2 b).2]; exact d
      · have hpr' : pr = (it, tr.nodes.length) := by simpa using hpr
        subst hpr'
        exact ⟨hN1, by rw [hlen]; omega, hnew.1, hnew.2.1⟩
    · by_cases hix : idx < tr.nodes.length
      · rw [newNodeTree_children_ne tr n it idx hix (fun he => hself he.symm)] at hpr
        obtain ⟨a, b, c, d⟩ := h.childCoh idx pr hpr
        exact ⟨a, by rw [hlen]; omega, by rw [(hpres pr.2 b).1]; exact c,
          by rw [(hpres pr.2 b).2]; exact d⟩
      · by_cases hnewidx : idx = tr.nodes.length
        · subst hnewidx
          rw [hnew.2.2] at hpr
          cases hpr
        · have hout : (newNodeTree tr n it).nodes.length ≤ idx := by rw [hlen]; omega
          rw [childrenOf_out _ idx hout] at hpr
          cases hpr
  · intro idx h1 h2
    rw [hlen] at h2
    by_cases hix : idx < tr.nodes.length
    · rw [(hpres idx hix).1]
      exact newNodeTree_any_of tr n it (itemOf tr idx) (h.nodeHdr idx h1 hix)
    · have hteq : idx = tr.nodes.length := by omega
      subst hteq
      rw [hnew.1]
      exact newNodeTree_any_self tr n it
  · intro e he idx hidx
    rw [newNodeTree_header_eq] at he
    rcases headerAppend_mem tr it tr.nodes.length e he with ⟨e₀, he₀, hcase⟩ | hcase
    · rcases hcase with ⟨hkey, heq⟩ | ⟨hkey, heq⟩
      · subst heq
        have hidx' : idx ∈ e₀.2.2 ++ [tr.nodes.length] := hidx
        rw [List.mem_append] at hidx'
        rcases hidx' with hidx' | hidx'
        · obtain ⟨a, b, c⟩ := h.hdrChain e₀ he₀ idx hidx'
          exact ⟨a, by rw [hlen]; omega, by rw [(hpres idx b).1]; exact c⟩
        · have hiq : idx = tr.nodes.length := by simpa using hidx'
          subst hiq
          refine ⟨hN1, by rw [hlen]; omega, ?_⟩
          show itemOf (newNodeTree tr n it) tr.nodes.length = e₀.1
          rw [hnew.1, hkey]
      · rw [heq] at hidx ⊢
        obtain ⟨a, b, c⟩ := h.hdrChain e₀ he₀ idx hidx
        exact ⟨a, by rw [hlen]; omega, by rw [(hpres idx b).1]; exact c⟩
    · subst hcase
      have hiq : idx = tr.nodes.length := by simpa using hidx
      subst hiq
      exact ⟨hN1, by rw [hlen]; omega, hnew.1⟩
  · intro e he
    rw [newNodeTree_header_eq] at he
    rw [hfreq]
    rcases headerAppend_mem tr it tr.nodes.length e he with ⟨e₀, he₀, hcase⟩ | hcase
    · rcases hcase with ⟨hkey, heq⟩ | ⟨hkey, heq⟩
      · subst heq
        exact h.hdrCount e₀ he₀
      · rw [heq]
        exact h.hdrCount e₀ he₀
    · subst hcase
      exact ⟨rfl, hfq⟩
  · intro idx h1 h2 fuel
    rw [hlen] at h2
    by_cases hix : idx < tr.nodes.length
    · rw [climbAux_newNodeTree tr S n it h fuel idx hix, (hpres idx hix).1]
      exact h.pathInf idx h1 hix fuel
    · have hteq : idx = tr.nodes.length := by omega
      subst hteq
      rw [hnew.1]
      obtain ⟨s, hs, hinf⟩ := pathIncl_of_anchor (newNodeTree tr n it) S n
        tr.nodes.length it rest hnew.2.1 hnew.1 ha' fuel
      rw [hnew.1] at hinf
      exact ⟨s, hs, hinf⟩
  · rw [newNodeTree_header_eq]
    exact headerAppend_nodup tr it tr.nodes.length h.hdrNodup

/-- Master preservation lemma for `_insert_transaction`: inserting an
anchored list of frequent items at an in-range node keeps the structural
invariant and the frequent dict, never loses a header key, and gives every
inserted item a header entry. -/
theorem insertTransaction_inv (S : List (List String)) :
    ∀ (items : List String) (tr : FPTree) (n d : Nat),
      TreeInv tr S → n < tr.nodes.length → Anchor tr n items S →
      (∀ x ∈ items, (tr.frequent_items.any (fun pr => pr.1 = x)) = true) →
      TreeInv (insertTransaction tr items n d) S ∧
      (insertTransaction tr items n d).frequent_items = tr.frequent_items ∧
      (∀ x, (tr.header_table.any (fun e => e.1 = x)) = true →
        ((insertTransaction tr items n d).header_table.any (fun e => e.1 = x)) = true) ∧
      (∀ x ∈ items,
        ((insertTransaction tr items n d).header_table.any (fun e => e.1 = x)) = true) := by
  intro items
  induction items with
  | nil =>
    intro tr n d hinv hn hanch hfq
    exact ⟨hinv, rfl, fun x hx => hx, fun x hx => absurd hx (List.not_mem_nil x)⟩
  | cons item rest ih =>
    intro tr n d hinv hn hanch hfq
    have hdef : insertTransaction tr (item :: rest) n d =
        (match childLookup (bumpDepth tr d) n item with
         | some childIdx =>
           insertTransaction (incrementNode (bumpDepth tr d) childIdx) rest childIdx (d + 1)
         | none =>
           insertTransaction (newNodeTree (bumpDepth tr d) n item) rest
             (bumpDepth tr d).nodes.length (d + 1)) := rfl
    have hinv1 : TreeInv (bumpDepth tr d) S :=
      TreeInv_ext tr (bumpDepth tr d) S (bumpDepth_nodes tr d) (bumpDepth_header tr d)
        (bumpDepth_freq tr d) hinv
    have hanch1 : Anchor (bumpDepth tr d) n (item :: rest) S :=
      Anchor_ext tr (bumpDepth tr d) S n (item :: rest) (bumpDepth_nodes tr d) hanch
    have hn1 : n < (bumpDepth tr d).nodes.length := hn
    cases hcl : childLookup (bumpDepth tr d) n item with
    | some c =>
      unfold childLookup at hcl
      rcases Option.map_eq_some'.mp hcl with ⟨pr, hfind, hc⟩
      subst hc
      have hmem : pr ∈ childrenOf (bumpDepth tr d) n := List.mem_of_find?_eq_some hfind
      have hpr1 : pr.1 = item := by
        have hp := List.find?_some hfind
        simpa using hp
      obtain ⟨h1c, hclt, hitem, hparent⟩ := hinv1.childCoh n pr hmem
      have hred : insertTransaction tr (item :: rest) n d =
          insertTransaction (incrementNode (bumpDepth tr d) pr.2) rest pr.2 (d + 1) := by
        rw [hdef]
        rw [show childLookup (bumpDepth tr d) n item = some pr.2 from hcl]
      have hinv2 : TreeInv (incrementNode (bumpDepth tr d) pr.2) S :=
        TreeInv_incrementNode (bumpDepth tr d) S pr.2 hinv1
      have hanchc : Anchor (bumpDepth tr d) pr.2 rest S :=
        Anchor_step (bumpDepth tr d) S n pr.2 item rest hparent (hitem.trans hpr1) hanch1
      have hanch2 : Anchor (incrementNode (bumpDepth tr d) pr.2) pr.2 rest S :=
        Anchor_incrementNode (bumpDepth tr d) S pr.2 pr.2 rest hinv1 hclt hanchc
      have hn2 : pr.2 < (incrementNode (bumpDepth tr d) pr.2).nodes.length := by
        rw [incrementNode_len]; exact hclt
      have hfq2 : ∀ x ∈ rest,
          ((incrementNode (bumpDepth tr d) pr.2).frequent_items.any
            (fun p => p.1 = x)) = true := by
        intro x hx
        rw [incrementNode_freq]
        exact hfq x (List.mem_cons_of_mem item hx)
      obtain ⟨hI, hF, hM, hA⟩ :=
        ih (incrementNode (bumpDepth tr d) pr.2) pr.2 (d + 1) hinv2 hn2 hanch2 hfq2
      rw [hred]
      refine ⟨hI, hF.trans (incrementNode_freq (bumpDepth tr d) pr.2), ?_, ?_⟩
      · intro x hx
        apply hM
        rw [incrementNode_header]
        exact hx
      · intro x hx
        rcases List.mem_cons.mp hx with hxi | hxr
        · subst hxi
          apply hM
          rw [incrementNode_header]
          have hhdr := hinv1.nodeHdr pr.2 h1c hclt
          rw [hitem, hpr1] at hhdr
          exact hhdr
        · exact hA x hxr
    | none =>
      have hred : insertTransaction tr (item :: rest) n d =
          insertTransaction (newNodeTree (bumpDepth tr d) n item) rest
            (bumpDepth tr d).nodes.length (d + 1) := by
        rw [hdef, hcl]
      have hfqi : ((bumpDepth tr d).frequent_items.any (fun p => p.1 = item)) = true :=
        hfq item (List.mem_cons_self item rest)
      have hinvN : TreeInv (newNodeTree (bumpDepth tr d) n item) S :=
        TreeInv_newNodeTree (bumpDepth tr d) S n item rest hinv1 hn1 hfqi hanch1
      have hnewN := newNodeTree_new (bumpDepth tr d) n item hn1
      have hanchN : Anchor (newNodeTree (bumpDepth tr d) n item) n (item :: rest) S :=
        Anchor_newNodeTree (bumpDepth tr d) S n item n (item :: rest) hinv1 hn1 hanch1
      have hanchc : Anchor (newNodeTree (bumpDepth tr d) n item)
          (bumpDepth tr d).nodes.length rest S :=
        Anchor_step (newNodeTree (bumpDepth tr d) n item) S n
          (bumpDepth tr d).nodes.length item rest hnewN.2.1 hnewN.1 hanchN
      have hnN : (bumpDepth tr d).nodes.length <
          (newNodeTree (bumpDepth tr d) n item).nodes.length := by
        rw [newNodeTree_len]; omega
      have hfqN : ∀ x ∈ rest,
          ((newNodeTree (bumpDepth tr d) n item).frequent_items.any
            (fun p => p.1 = x)) = true := by
        intro x hx
        rw [newNodeTree_freq]
        exact hfq x (List.mem_cons_of_mem item hx)
      obtain ⟨hI, hF, hM, hA⟩ :=
        ih (newNodeTree (bumpDepth tr d) n item) (bumpDepth tr d).nodes.length (d + 1)
          hinvN hnN hanchc hfqN
      rw [hred]
      refine ⟨hI, hF.trans (newNodeTree_freq (bumpDepth tr d) n item), ?_, ?_⟩
      · intro x hx
        exact hM x (newNodeTree_any_of (bumpDepth tr d) n item x hx)
      · intro x hx
        rcases List.mem_cons.mp hx with hxi | hxr
        · subst hxi
          exact hM x (newNodeTree_any_self (bumpDepth tr d) n x)
        · exact hA x hxr

/-- The stable descending insertion permutes to a cons. -/
theorem insertDesc_perm {α : Type} (key : α → Nat) (x : α) :
    ∀ (l : List α), (insertDesc key x l).Perm (x :: l) := by
  intro l
  induction l with
  | nil => exact List.Perm.refl _
  | cons y ys ih =>
    unfold insertDesc
    by_cases hk : key y ≤ key x
    · rw [if_pos hk]
    · rw [if_neg hk]
      exact (ih.cons y).trans (List.Perm.swap x y ys)

/-- The stable descending sort is a permutation. -/
theorem sortDesc_perm {α : Type} (key : α → Nat) :
    ∀ (l : List α), (sortDesc key l).Perm l := by
  intro l
  induction l with
  | nil => exact List.Perm.refl _
  | cons x xs ih =>
    unfold sortDesc
    exact (insertDesc_perm key x (sortDesc key xs)).trans (ih.cons x)

/-- The stable ascending insertion permutes to a cons. -/
theorem insertAsc_perm {α : Type} (key : α → Nat) (x : α) :
    ∀ (l : List α), (insertAsc key x l).Perm (x :: l) := by
  intro l
  induction l with
  | nil => exact List.Perm.refl _
  | cons y ys ih =>
    unfold insertAsc
    by_cases hk : key x ≤ key y
    · rw [if_pos hk]
    · rw [if_neg hk]
      exact (ih.cons y).trans (List.Perm.swap x y ys)

/-- The stable ascending sort is a permutation. -/
theorem sortAsc_perm {α : Type} (key : α → Nat) :
    ∀ (l : List α), (sortAsc key l).Perm l := by
  intro l
  induction l with
  | nil => exact List.Perm.refl _
  | cons x xs ih =>
    unfold sortAsc
    exact (insertAsc_perm key x (sortAsc key xs)).trans (ih.cons x)

/-- Members of a processed transaction come from the transaction and carry a
key of the frequent dict (the filter of `FPTree.__init__`). -/
theorem mem_processedTx (freq : List (String × Nat)) (t : List String) (x : String)
    (hx : x ∈ processedTx freq t) :
    x ∈ t ∧ (freq.any (fun pr => pr.1 = x)) = true := by
  unfold processedTx at hx
  have hx' : x ∈ t.filter (fun y => freq.any (fun pr => pr.1 = y)) :=
    (sortDesc_perm (fun y => lookupCnt freq y) _).mem_iff.mp hx
  rw [List.mem_filter] at hx'
  exact ⟨hx'.1, hx'.2⟩

/-- A processed transaction of a duplicate-free transaction is duplicate-free
(the filter keeps a sublist, the stable sort permutes it). -/
theorem processedTx_nodup (freq : List (String × Nat)) (t : List String) (h : t.Nodup) :
    (processedTx freq t).Nodup := by
  unfold processedTx
  exact ((sortDesc_perm (fun y => lookupCnt freq y) _).nodup_iff).mpr
    (h.filter (fun y => freq.any (fun pr => pr.1 = y)))

/-- The initial one-node tree satisfies the invariant for any transaction
multiset (all per-node conditions are vacuous). -/
theorem TreeInv_initTree (T : List (List String)) (s : Int) (S : List (List String)) :
    TreeInv (initTree T s none) S := by
  constructor
  · exact Nat.one_pos
  · rfl
  · rfl
  · intro idx h1 h2
    have : idx < 1 := h2
    omega
  · intro idx pr hpr
    exact absurd hpr (by cases idx with
      | zero => exact List.not_mem_nil pr
      | succ k => exact List.not_mem_nil pr)
  · intro idx h1 h2
    have : idx < 1 := h2
    omega
  · intro e he
    exact absurd he (List.not_mem_nil e)
  · intro e he
    exact absurd he (List.not_mem_nil e)
  · intro idx h1 h2
    have : idx < 1 := h2
    omega
  · exact List.nodup_nil

/-- Fold lemma for the insertion loop of `FPTree.__init__`: starting from an
invariant tree whose frequent dict is the computed one, folding any
sub-collection of the transactions keeps the invariant and dict, keeps every
header key, and gives every item of each processed transaction a header
entry. -/
theorem insertFold_inv (T : List (List String)) (s : Int) :
    ∀ (L : List (List String)) (tr : FPTree),
      (∀ t ∈ L, t ∈ T) → TreeInv tr (processedList T s) →
      tr.frequent_items = freqOf T s →
      TreeInv (L.foldl (insStep T s) tr) (processedList T s) ∧
      (L.foldl (insStep T s) tr).frequent_items = freqOf T s ∧
      (∀ x, (tr.header_table.any (fun e => e.1 = x)) = true →
        ((L.foldl (insStep T s) tr).header_table.any (fun e => e.1 = x)) = true) ∧
      (∀ t ∈ L, ∀ x ∈ processedTx (freqOf T s) t,
        ((L.foldl (insStep T s) tr).header_table.any (fun e => e.1 = x)) = true) := by
  intro L
  induction L with
  | nil =>
    intro tr hL hinv hfr
    exact ⟨hinv, hfr, fun x hx => hx, fun t ht => absurd ht (List.not_mem_nil t)⟩
  | cons t L ih =>
    intro tr hL hinv hfr
    have hfold : (t :: L).foldl (insStep T s) tr = L.foldl (insStep T s) (insStep T s tr t) :=
      rfl
    by_cases hemp : (processedTx (freqOf T s) t).isEmpty = true
    · have hstep : insStep T s tr t = tr := by
        unfold insStep
        rw [if_pos hemp]
      obtain ⟨hI, hF, hM, hA⟩ := ih tr (fun u hu => hL u (List.mem_cons_of_mem t hu)) hinv hfr
      rw [hfold, hstep]
      refine ⟨hI, hF, hM, ?_⟩
      intro u hu x hx
      rcases List.mem_cons.mp hu with hut | huL
      · subst hut
        rw [List.isEmpty_iff] at hemp
        rw [hemp] at hx
        exact absurd hx (List.not_mem_nil x)
      · exact hA u huL x hx
    · have hstep : insStep T s tr t = insertTransaction tr (processedTx (freqOf T s) t) 0 0 := by
        unfold insStep
        rw [if_neg hemp]
      have hanch : Anchor tr 0 (processedTx (freqOf T s) t) (processedList T s) := by
        refine ⟨processedTx (freqOf T s) t, ?_, fun fuel => ?_⟩
        · exact List.mem_map_of_mem _ (hL t (List.mem_cons_self t L))
        · unfold extPath
          rw [if_pos hinv.rootItem]
          simp
      have hfq : ∀ x ∈ processedTx (freqOf T s) t,
          (tr.frequent_items.any (fun pr => pr.1 = x)) = true := by
        intro x hx
        rw [hfr]
        exact (mem_processedTx (freqOf T s) t x hx).2
      obtain ⟨hI0, hF0, hM0, hA0⟩ := insertTransaction_inv (processedList T s)
        (processedTx (freqOf T s) t) tr 0 0 hinv hinv.lenPos hanch hfq
      obtain ⟨hI, hF, hM, hA⟩ := ih (insertTransaction tr (processedTx (freqOf T s) t) 0 0)
        (fun u hu => hL u (List.mem_cons_of_mem t hu)) hI0 (hF0.trans hfr)
      rw [hfold, hstep]
      refine ⟨hI, hF, fun x hx => hM x (hM0 x hx), ?_⟩
      intro u hu x hx
      rcases List.mem_cons.mp hu with hut | huL
      · subst hut
        exact hM x (hA0 x hx)
      · exact hA u huL x hx

/-- `FPTree.__init__` summarised: the built tree satisfies the structural
invariant for its own processed transactions, its frequent dict is the
computed one, and every item of every processed transaction has a header
entry. -/
theorem buildTree_inv (T : List (List String)) (s : Int) :
    TreeInv (buildTree T s none) (processedList T s) ∧
    (buildTree T s none).frequent_items = freqOf T s ∧
    (∀ t ∈ T, ∀ x ∈ processedTx (freqOf T s) t,
      ((buildTree T s none).header_table.any (fun e => e.1 = x)) = true) := by
  have hb : buildTree T s none = T.foldl (insStep T s) (initTree T s none) := rfl
  obtain ⟨hI, hF, hM, hA⟩ := insertFold_inv T s T (initTree T s none)
    (fun t ht => ht) (TreeInv_initTree T s (processedList T s)) rfl
  rw [hb]
  exact ⟨hI, hF, hA⟩

/-- Every entry of a `counterAdd` result carries a key of the old entries or
the added item. -/
theorem mem_counterAdd (l : List (String × Nat)) (x : String) (pr : String × Nat)
    (h : pr ∈ counterAdd l x) : (∃ q ∈ l, pr.1 = q.1) ∨ pr.1 = x := by
  unfold counterAdd at h
  by_cases hb : l.any (fun q => q.1 = x) = true
  · rw [if_pos hb] at h
    rw [List.mem_map] at h
    obtain ⟨q, hq, hqe⟩ := h
    left
    refine ⟨q, hq, ?_⟩
    by_cases hqx : q.1 = x
    · rw [if_pos hqx] at hqe
      rw [← hqe]
    · rw [if_neg hqx] at hqe
      rw [← hqe]
  · rw [if_neg hb] at h
    rw [List.mem_append] at h
    rcases h with h | h
    · exact Or.inl ⟨pr, h, rfl⟩
    · right
      have : pr = (x, 1) := by simpa using h
      rw [this]

/-- Every entry of a `counterAdd` result has a positive count, provided the
old entries do. -/
theorem pos_counterAdd (l : List (String × Nat)) (x : String)
    (hl : ∀ q ∈ l, 1 ≤ q.2) : ∀ pr ∈ counterAdd l x, 1 ≤ pr.2 := by
  intro pr h
  unfold counterAdd at h
  by_cases hb : l.any (fun q => q.1 = x) = true
  · rw [if_pos hb] at h
    rw [List.mem_map] at h
    obtain ⟨q, hq, hqe⟩ := h
    by_cases hqx : q.1 = x
    · rw [if_pos hqx] at hqe
      rw [← hqe]
      omega
    · rw [if_neg hqx] at hqe
      rw [← hqe]
      exact hl q hq
  · rw [if_neg hb] at h
    rw [List.mem_append] at h
    rcases h with h | h
    · exact hl pr h
    · have : pr = (x, 1) := by simpa using h
      rw [this]

/-- Keys produced by counting one transaction come from the accumulator or the
transaction. -/
theorem mem_foldl_counterAdd (t : List String) :
    ∀ (acc : List (String × Nat)) (pr : String × Nat), pr ∈ t.foldl counterAdd acc →
      (∃ q ∈ acc, pr.1 = q.1) ∨ pr.1 ∈ t := by
  induction t with
  | nil =>
    intro acc pr h
    exact Or.inl ⟨pr, h, rfl⟩
  | cons y ys ih =>
    intro acc pr h
    rcases ih (counterAdd acc y) pr h with ⟨q, hq, hqe⟩ | hin
    · rcases mem_counterAdd acc y q hq with ⟨q', hq', hqe'⟩ | hqy
      · exact Or.inl ⟨q', hq', hqe.trans hqe'⟩
      · exact Or.inr (by rw [hqe, hqy]; exact List.mem_cons_self y ys)
    · exact Or.inr (List.mem_cons_of_mem y hin)

/-- Counts produced by counting one transaction stay positive. -/
theorem pos_foldl_counterAdd (t : List String) :
    ∀ (acc : List (String × Nat)), (∀ q ∈ acc, 1 ≤ q.2) →
      ∀ pr ∈ t.foldl counterAdd acc, 1 ≤ pr.2 := by
  induction t with
  | nil => intro acc hacc pr h; exact hacc pr h
  | cons y ys ih =>
    intro acc hacc pr h
    exact ih (counterAdd acc y) (pos_counterAdd acc y hacc) pr h

/-- Every key of the occurrence Counter occurs in the transactions. -/
theorem itemCounts_mem_flatten (T : List (List String)) :
    ∀ pr ∈ itemCounts T, pr.1 ∈ T.flatten := by
  have haux : ∀ (L : List (List String)) (acc : List (String × Nat)) (pr : String × Nat),
      pr ∈ L.foldl (fun a t => t.foldl counterAdd a) acc →
      (∃ q ∈ acc, pr.1 = q.1) ∨ pr.1 ∈ L.flatten := by
    intro L
    induction L with
    | nil => intro acc pr h; exact Or.inl ⟨pr, h, rfl⟩
    | cons t ts ih =>
      intro acc pr h
      rcases ih (t.foldl counterAdd acc) pr h with ⟨q, hq, hqe⟩ | hin
      · rcases mem_foldl_counterAdd t acc q hq with ⟨q', hq', hqe'⟩ | hqt
        · exact Or.inl ⟨q', hq', hqe.trans hqe'⟩
        · refine Or.inr ?_
          rw [List.flatten_cons, List.mem_append]
          exact Or.inl (hqe ▸ hqt)
      · refine Or.inr ?_
        rw [List.flatten_cons, List.mem_append]
        exact Or.inr hin
  intro pr h
  rcases haux T [] pr h with ⟨q, hq, _⟩ | hin
  · exact absurd hq (List.not_mem_nil q)
  · exact hin

/-- Every count of the occurrence Counter is positive. -/
theorem itemCounts_pos (T : List (List String)) : ∀ pr ∈ itemCounts T, 1 ≤ pr.2 := by
  have haux : ∀ (L : List (List String)) (acc : List (String × Nat)),
      (∀ q ∈ acc, 1 ≤ q.2) →
      ∀ pr ∈ L.foldl (fun a t => t.foldl counterAdd a) acc, 1 ≤ pr.2 := by
    intro L
    induction L with
    | nil => intro acc hacc pr h; exact hacc pr h
    | cons t ts ih =>
      intro acc hacc pr h
      exact ih (t.foldl counterAdd acc) (pos_foldl_counterAdd t acc hacc) pr h
  exact haux T [] (fun q hq => absurd hq (List.not_mem_nil q))

/-- Frequent entries are Counter entries. -/
theorem freqOf_sub (T : List (List String)) (s : Int) :
    ∀ pr ∈ freqOf T s, pr ∈ itemCounts T := by
  intro pr h
  exact List.mem_of_mem_filter h

/-- Any key of the frequent dict occurs in the transactions. -/
theorem freq_key_flatten (T : List (List String)) (s : Int) (x : String)
    (h : ((freqOf T s).any (fun pr => pr.1 = x)) = true) : x ∈ T.flatten := by
  rw [List.any_eq_true] at h
  obtain ⟨pr, hpr, hx⟩ := h
  have hx' : pr.1 = x := by simpa using hx
  rw [← hx']
  exact itemCounts_mem_flatten T pr (freqOf_sub T s pr hpr)

/-- With a non-positive floor the frequency filter keeps every Counter
entry. -/
theorem freqOf_nonpos (T : List (List String)) (s : Int) (hs : s ≤ 0) :
    freqOf T s = itemCounts T := by
  unfold freqOf
  rw [List.filter_eq_self]
  intro pr hpr
  have h1 : 1 ≤ pr.2 := itemCounts_pos T pr hpr
  have : s ≤ (pr.2 : Int) := by omega
  exact decide_eq_true this

/-- An occurring item has a positive occurrence count. -/
theorem occCount_pos (x : String) (T : List (List String)) (h : x ∈ T.flatten) :
    0 < occCount x T := by
  induction T with
  | nil => exact absurd h (List.not_mem_nil x)
  | cons t ts ih =>
    rw [List.flatten_cons, List.mem_append] at h
    unfold occCount
    rw [List.map_cons, List.sum_cons]
    rcases h with h | h
    · have hc : t.count x ≠ 0 := fun hc => (List.count_eq_zero.mp hc) h
      omega
    · have := ih h
      unfold occCount at this
      omega

/-- An occurring item has a Counter entry. -/
theorem itemCounts_any_of_flatten (T : List (List String)) (x : String)
    (h : x ∈ T.flatten) : ((itemCounts T).any (fun pr => pr.1 = x)) = true := by
  cases hb : (itemCounts T).any (fun pr => pr.1 = x) with
  | true => rfl
  | false =>
    have h0 : lookupCnt (itemCounts T) x = 0 := lookupCnt_eq_zero (itemCounts T) x hb
    rw [lookupCnt_itemCounts] at h0
    have := occCount_pos x T h
    omega

/-- A transaction member that is frequent survives the processing filter and
sort. -/
theorem mem_processedTx_of (freq : List (String × Nat)) (t : List String) (x : String)
    (hx : x ∈ t) (hf : (freq.any (fun pr => pr.1 = x)) = true) :
    x ∈ processedTx freq t := by
  unfold processedTx
  refine (sortDesc_perm (fun y => lookupCnt freq y) _).mem_iff.mpr ?_
  rw [List.mem_filter]
  exact ⟨hx, hf⟩

/-- The accumulator fold of the conditional-database materialisation is an
append of replicated paths. -/
theorem condTransactions_eq_flatMap (cps : List (List String × Nat)) :
    ∀ (acc : List (List String)),
      cps.foldl (fun l pc => l ++ List.replicate pc.2 pc.1) acc =
        acc ++ cps.flatMap (fun pc => List.replicate pc.2 pc.1) := by
  induction cps with
  | nil => intro acc; simp
  | cons pc rest ih =>
    intro acc
    rw [List.foldl_cons, ih (acc ++ List.replicate pc.2 pc.1), List.flatMap_cons,
      List.append_assoc]

/-- Every conditional transaction is one of the prefix paths. -/
theorem mem_condTransactions (cps : List (List String × Nat)) (t : List String)
    (h : t ∈ condTransactions cps) : ∃ pc ∈ cps, t = pc.1 := by
  unfold condTransactions at h
  rw [condTransactions_eq_flatMap cps [], List.nil_append, List.mem_flatMap] at h
  obtain ⟨pc, hpc, ht⟩ := h
  exact ⟨pc, hpc, List.eq_of_mem_replicate ht⟩

/-- Every prefix path of a built tree, extended with the conditioning item,
is a contiguous run of a processed transaction. -/
theorem getPaths_cond_infix (T : List (List String)) (s : Int) (x : String)
    (p : List String) (c : Nat) (h : (p, c) ∈ getPaths (buildTree T s none) x) :
    ∃ t ∈ T, (p ++ [x]) <:+: processedTx (freqOf T s) t := by
  obtain ⟨e, hfind, idx, hidx, hp, hpne, hc⟩ := mem_getPaths (buildTree T s none) x p c h
  have hinv := (buildTree_inv T s).1
  have he : e ∈ (buildTree T s none).header_table := List.mem_of_find?_eq_some hfind
  have hex : e.1 = x := by
    have hfs := List.find?_some hfind
    simpa using hfs
  obtain ⟨h1, h2, h3⟩ := hinv.hdrChain e he idx hidx
  obtain ⟨sp, hsp, hinf⟩ := hinv.pathInf idx h1 h2 (buildTree T s none).nodes.length
  rw [h3, hex] at hinf
  have hsp' : sp ∈ T.map (processedTx (freqOf T s)) := hsp
  obtain ⟨t, ht, hts⟩ := List.mem_map.mp hsp'
  refine ⟨t, ht, ?_⟩
  rw [hts, hp]
  exact hinf

/-- Conditional-database shrinkage on duplicate-free inputs: every
conditional transaction is duplicate-free and avoids the conditioning item,
and the distinct-item universe strictly shrinks. -/
theorem cond_shrink (T : List (List String)) (s : Int) (x : String)
    (hN : ∀ t ∈ T, t.Nodup)
    (hx : ((buildTree T s none).header_table.any (fun e => e.1 = x)) = true) :
    (∀ t ∈ condTransactions (getPaths (buildTree T s none) x), t.Nodup ∧ x ∉ t) ∧
    itemsFinset (condTransactions (getPaths (buildTree T s none) x)) ⊂ itemsFinset T := by
  have hmain : ∀ t ∈ condTransactions (getPaths (buildTree T s none) x),
      t.Nodup ∧ x ∉ t ∧ ∀ y ∈ t, y ∈ T.flatten := by
    intro t ht
    obtain ⟨pc, hpc, hteq⟩ := mem_condTransactions _ t ht
    subst hteq
    obtain ⟨t₀, ht₀, hinf⟩ := getPaths_cond_infix T s x pc.1 pc.2 hpc
    have hspN : (processedTx (freqOf T s) t₀).Nodup :=
      processedTx_nodup (freqOf T s) t₀ (hN t₀ ht₀)
    have hnd : (pc.1 ++ [x]).Nodup := List.Nodup.sublist hinf.sublist hspN
    rw [List.nodup_append] at hnd
    obtain ⟨hnd1, _, hdisj⟩ := hnd
    have hxnot : x ∉ pc.1 := fun hxin => hdisj hxin (List.mem_singleton_self x)
    refine ⟨hnd1, hxnot, ?_⟩
    intro y hy
    have hy' : y ∈ processedTx (freqOf T s) t₀ :=
      hinf.sublist.subset (List.mem_append_left [x] hy)
    have hyt : y ∈ t₀ := (mem_processedTx (freqOf T s) t₀ y hy').1
    exact List.mem_flatten.mpr ⟨t₀, ht₀, hyt⟩
  have hxflat : x ∈ T.flatten := by
    rw [List.any_eq_true] at hx
    obtain ⟨e, he, hex⟩ := hx
    have hex' : e.1 = x := by simpa using hex
    have hcount := ((buildTree_inv T s).1).hdrCount e he
    have hfreq := (buildTree_inv T s).2.1
    rw [hfreq, hex'] at hcount
    exact freq_key_flatten T s x hcount.2
  have hsub : itemsFinset (condTransactions (getPaths (buildTree T s none) x)) ⊆
      itemsFinset T := by
    intro y hy
    rw [itemsFinset, List.mem_toFinset] at hy
    obtain ⟨t, ht, hyt⟩ := List.mem_flatten.mp hy
    rw [itemsFinset, List.mem_toFinset]
    exact (hmain t ht).2.2 y hyt
  refine ⟨fun t ht => ⟨(hmain t ht).1, (hmain t ht).2.1⟩, ?_⟩
  rw [Finset.ssubset_iff_of_subset hsub]
  refine ⟨x, ?_, ?_⟩
  · rw [itemsFinset, List.mem_toFinset]
    exact hxflat
  · intro hxC
    rw [itemsFinset, List.mem_toFinset] at hxC
    obtain ⟨t, ht, hxt⟩ := List.mem_flatten.mp hxC
    exact (hmain t ht).2.1 hxt

/-- Folds of functions that agree on the list's members are equal. -/
theorem foldl_congr_mem {α β : Type} (f g : β → α → β) :
    ∀ (l : List α), (∀ (b : β) (a : α), a ∈ l → f b a = g b a) →
      ∀ (b : β), l.foldl f b = l.foldl g b := by
  intro l
  induction l with
  | nil => intro _ b; rfl
  | cons a as ih =>
    intro h b
    rw [List.foldl_cons, List.foldl_cons, h b a (List.mem_cons_self a as)]
    exact ih (fun bb aa haa => h bb aa (List.mem_cons_of_mem a haa)) (g b a)

/-- Fuel stability of `fp_growth` on duplicate-free inputs: any two fuels
strictly above the number of distinct items give the same result (the
recursion depth is bounded by the distinct-item count, so `card + 1` levels
suffice). -/
theorem fpGrowth_fuel_stable (sz : FPNode → Nat) :
    ∀ (n f₁ f₂ : Nat) (T : List (List String)) (s : Int) (p : List String) (tk : Bool),
      (∀ t ∈ T, t.Nodup) → (itemsFinset T).card ≤ n → n < f₁ → n < f₂ →
      fpGrowth sz f₁ T s p tk = fpGrowth sz f₂ T s p tk := by
  intro n
  induction n with
  | zero =>
    intro f₁ f₂ T s p tk hN hcard h1 h2
    obtain ⟨a, rfl⟩ : ∃ a, f₁ = a + 1 := ⟨f₁ - 1, by omega⟩
    obtain ⟨b, rfl⟩ : ∃ b, f₂ = b + 1 := ⟨f₂ - 1, by omega⟩
    simp only [fpGrowth]
    by_cases hemp : (buildTree T s none).frequent_items.isEmpty = true
    · rw [if_pos hemp, if_pos hemp]
    · exfalso
      have hne : (buildTree T s none).frequent_items ≠ [] := by
        intro h0
        rw [h0] at hemp
        exact hemp rfl
      obtain ⟨pr, hpr⟩ := List.exists_mem_of_ne_nil _ hne
      rw [(buildTree_inv T s).2.1] at hpr
      have hflat : pr.1 ∈ T.flatten := itemCounts_mem_flatten T pr (freqOf_sub T s pr hpr)
      have hpos : 0 < (itemsFinset T).card :=
        Finset.card_pos.mpr ⟨pr.1, by rw [itemsFinset, List.mem_toFinset]; exact hflat⟩
      omega
  | succ m ih =>
    intro f₁ f₂ T s p tk hN hcard h1 h2
    obtain ⟨a, rfl⟩ : ∃ a, f₁ = a + 1 := ⟨f₁ - 1, by omega⟩
    obtain ⟨b, rfl⟩ : ∃ b, f₂ = b + 1 := ⟨f₂ - 1, by omega⟩
    simp only [fpGrowth]
    by_cases hemp : (buildTree T s none).frequent_items.isEmpty = true
    · rw [if_pos hemp, if_pos hemp]
    · rw [if_neg hemp, if_neg hemp]
      apply foldl_congr_mem
      intro acc e he
      have he' : e ∈ (buildTree T s none).header_table :=
        (sortAsc_perm (fun q => q.2.1) _).mem_iff.mp he
      have hany : ((buildTree T s none).header_table.any (fun q => q.1 = e.1)) = true :=
        List.any_eq_true.mpr ⟨e, he', by simp⟩
      simp only [fpStep]
      by_cases hcp : (getPaths (buildTree T s none) e.1).isEmpty = true
      · rw [if_pos hcp, if_pos hcp]
      · rw [if_neg hcp, if_neg hcp]
        have hrec : fpGrowth sz a (condTransactions (getPaths (buildTree T s none) e.1))
              s (p ++ [e.1]) tk =
            fpGrowth sz b (condTransactions (getPaths (buildTree T s none) e.1))
              s (p ++ [e.1]) tk := by
          obtain ⟨hndC, hss⟩ := cond_shrink T s e.1 hN hany
          have hlt := Finset.card_lt_card hss
          exact ih a b _ s (p ++ [e.1]) tk (fun t ht => (hndC t ht).1)
            (by omega) (by omega) (by omega)
        rw [hrec]

/-- Claim C5 (corrected).  On inputs satisfying the spec's input contract —
every transaction has distinct item labels — the conditional database of any
header item of the built tree consists of duplicate-free transactions that
avoid the conditioning item, its distinct-item universe is strictly smaller
than the input's, and consequently the recursion depth of `fp_growth` is
bounded by the number of distinct items: any two fuels strictly above that
count (in particular `count + 1`) give identical results.  (Without the
distinct-label contract the claim fails, see the counterexample.) -/
theorem c5_theorem (sz : FPNode → Nat) (T : List (List String)) (s : Int)
    (p : List String) (tk : Bool) (x : String) (f₁ f₂ : Nat)
    (hN : ∀ t ∈ T, t.Nodup)
    (hx : ((buildTree T s none).header_table.any (fun e => e.1 = x)) = true)
    (hf₁ : (itemsFinset T).card < f₁) (hf₂ : (itemsFinset T).card < f₂) :
    (∀ t ∈ condTransactions (getPaths (buildTree T s none) x), t.Nodup ∧ x ∉ t) ∧
    itemsFinset (condTransactions (getPaths (buildTree T s none) x)) ⊂ itemsFinset T ∧
    fpGrowth sz f₁ T s p tk = fpGrowth sz f₂ T s p tk := by
  obtain ⟨h1, h2⟩ := cond_shrink T s x hN hx
  exact ⟨h1, h2,
    fpGrowth_fuel_stable sz ((itemsFinset T).card) f₁ f₂ T s p tk hN le_rfl hf₁ hf₂⟩

/-- Witness for C5 at `[[a],[a,b]]`, floor 1, conditioning item `b`, fuels
3 and 9 (both above the distinct-item count 2). -/
theorem c5_witness :
    (∀ t ∈ [["a"], ["a", "b"]], t.Nodup) ∧
    ((buildTree [["a"], ["a", "b"]] 1 none).header_table.any (fun e => e.1 = "b")) = true ∧
    (itemsFinset [["a"], ["a", "b"]]).card < 3 ∧
    ((∀ t ∈ condTransactions (getPaths (buildTree [["a"], ["a", "b"]] 1 none) "b"),
        t.Nodup ∧ "b" ∉ t) ∧
      itemsFinset (condTransactions (getPaths (buildTree [["a"], ["a", "b"]] 1 none) "b")) ⊂
        itemsFinset [["a"], ["a", "b"]] ∧
      fpGrowth szZero 3 [["a"], ["a", "b"]] 1 [] false =
        fpGrowth szZero 9 [["a"], ["a", "b"]] 1 [] false) :=
  ⟨by decide, by decide, by decide,
    c5_theorem szZero [["a"], ["a", "b"]] 1 [] false "b" 3 9
      (by decide) (by decide) (by decide) (by decide)⟩

/-- Entries of a dict insertion are old entries or the inserted pair. -/
theorem mem_dictInsert (l : List (List String × Nat)) (k : List String) (v : Nat)
    (pr : List String × Nat) (h : pr ∈ dictInsert l k v) : pr ∈ l ∨ pr = (k, v) := by
  unfold dictInsert at h
  by_cases hb : l.any (fun q => q.1 = k) = true
  · rw [if_pos hb] at h
    rw [List.mem_map] at h
    obtain ⟨q, hq, hqe⟩ := h
    by_cases hqk : q.1 = k
    · rw [if_pos hqk] at hqe
      exact Or.inr hqe.symm
    · rw [if_neg hqk] at hqe
      exact Or.inl (hqe ▸ hq)
  · rw [if_neg hb] at h
    rw [List.mem_append] at h
    rcases h with h | h
    · exact Or.inl h
    · exact Or.inr (by simpa using h)

/-- The inserted pair is always present after a dict insertion. -/
theorem dictInsert_mem_self (l : List (List String × Nat)) (k : List String) (v : Nat) :
    (k, v) ∈ dictInsert l k v := by
  unfold dictInsert
  by_cases hb : l.any (fun q => q.1 = k) = true
  · rw [if_pos hb]
    rw [List.any_eq_true] at hb
    obtain ⟨q, hq, hqk⟩ := hb
    have hqk' : q.1 = k := by simpa using hqk
    rw [List.mem_map]
    exact ⟨q, hq, by rw [if_pos hqk']⟩
  · rw [if_neg hb]
    exact List.mem_append_right l (List.mem_singleton_self _)

/-- Pairs under a different key survive a dict insertion. -/
theorem dictInsert_mem_ne (l : List (List String × Nat)) (k kk : List String) (v vv : Nat)
    (h : (k, v) ∈ l) (hne : kk ≠ k) : (k, v) ∈ dictInsert l kk vv := by
  unfold dictInsert
  by_cases hb : l.any (fun q => q.1 = kk) = true
  · rw [if_pos hb]
    rw [List.mem_map]
    refine ⟨(k, v), h, ?_⟩
    have hcond : ¬ (((k, v) : List String × Nat).1 = kk) := fun he => hne he.symm
    rw [if_neg hcond]
  · rw [if_neg hb]
    exact List.mem_append_left _ h

/-- Entries after a dict bulk update come from the base dict or carry a key
of the update. -/
theorem mem_dictUpdate (other : List (List String × Nat)) :
    ∀ (l : List (List String × Nat)) (pr : List String × Nat),
      pr ∈ dictUpdate l other → pr ∈ l ∨ ∃ q ∈ other, pr.1 = q.1 := by
  induction other with
  | nil => intro l pr h; exact Or.inl h
  | cons o rest ih =>
    intro l pr h
    have hd : dictUpdate l (o :: rest) = dictUpdate (dictInsert l o.1 o.2) rest := rfl
    rw [hd] at h
    rcases ih (dictInsert l o.1 o.2) pr h with hin | ⟨q, hq, hqe⟩
    · rcases mem_dictInsert l o.1 o.2 pr hin with hin' | heq
      · exact Or.inl hin'
      · exact Or.inr ⟨o, List.mem_cons_self o rest, by rw [heq]⟩
    · exact Or.inr ⟨q, List.mem_cons_of_mem o hq, hqe⟩

/-- Pairs whose key does not occur in the update survive a dict bulk update. -/
theorem dictUpdate_mem_preserve (other : List (List String × Nat)) :
    ∀ (l : List (List String × Nat)) (k : List String) (v : Nat),
      (k, v) ∈ l → (∀ q ∈ other, q.1 ≠ k) → (k, v) ∈ dictUpdate l other := by
  induction other with
  | nil => intro l k v h _; exact h
  | cons o rest ih =>
    intro l k v h hq
    have hd : dictUpdate l (o :: rest) = dictUpdate (dictInsert l o.1 o.2) rest := rfl
    rw [hd]
    exact ih (dictInsert l o.1 o.2) k v
      (dictInsert_mem_ne l k o.1 v o.2 h (hq o (List.mem_cons_self o rest)))
      (fun r hr => hq r (List.mem_cons_of_mem o hr))

/-- Every key of a `fp_growth` pattern table strictly extends the prefix. -/
theorem fpGrowth_key_extends (sz : FPNode → Nat) :
    ∀ (fuel : Nat) (T : List (List String)) (s : Int) (p : List String) (tk : Bool)
      (pr : List String × Nat), pr ∈ (fpGrowth sz fuel T s p tk).1 →
      p.length < pr.1.length := by
  intro fuel
  induction fuel with
  | zero =>
    intro T s p tk pr h
    exact absurd h (List.not_mem_nil pr)
  | succ f ih =>
    intro T s p tk pr h
    simp only [fpGrowth] at h
    by_cases hemp : (buildTree T s none).frequent_items.isEmpty = true
    · rw [if_pos hemp] at h
      exact absurd h (List.not_mem_nil pr)
    · rw [if_neg hemp] at h
      have hfold : ∀ (L : List (String × Nat × List Nat))
          (acc : List (List String × Nat) × MemStats),
          (∀ q ∈ acc.1, p.length < q.1.length) →
          ∀ q ∈ (L.foldl (fpStep (buildTree T s none) p tk
            (fun U pp => fpGrowth sz f U s pp tk)) acc).1,
          p.length < q.1.length := by
        intro L
        induction L with
        | nil => intro acc hacc q hq; exact hacc q hq
        | cons e L ihL =>
          intro acc hacc q hq
          rw [List.foldl_cons] at hq
          refine ihL (fpStep (buildTree T s none) p tk
            (fun U pp => fpGrowth sz f U s pp tk) acc e) ?_ q hq
          intro r hr
          simp only [fpStep] at hr
          by_cases hcp : (getPaths (buildTree T s none) e.1).isEmpty = true
          · rw [if_pos hcp] at hr
            rcases mem_dictInsert acc.1 (p ++ [e.1]) e.2.1 r hr with hrold | hreq
            · exact hacc r hrold
            · rw [hreq]
              show p.length < (p ++ [e.1]).length
              rw [List.length_append, List.length_singleton]
              omega
          · rw [if_neg hcp] at hr
            rcases mem_dictUpdate _ _ r hr with hin | ⟨q', hq', hqe⟩
            · rcases mem_dictInsert acc.1 (p ++ [e.1]) e.2.1 r hin with hrold | hreq
              · exact hacc r hrold
              · rw [hreq]
                show p.length < (p ++ [e.1]).length
                rw [List.length_append, List.length_singleton]
                omega
            · have hlen := ih (condTransactions (getPaths (buildTree T s none) e.1)) s
                (p ++ [e.1]) tk q' hq'
              rw [List.length_append, List.length_singleton] at hlen
              rw [hqe]
              omega
      exact hfold _ _ (fun q hq => absurd hq (List.not_mem_nil q)) pr h

/-- A pattern entry whose key has exactly one item beyond the prefix, and
whose key is not re-inserted by the remaining loop iterations, survives the
pattern-mining fold of `fp_growth`. -/
theorem fpFold_keep (sz : FPNode → Nat) (f : Nat) (tree : FPTree) (p : List String)
    (s : Int) (tk : Bool) (k : List String) (v : Nat)
    (hk : k.length = p.length + 1) :
    ∀ (L : List (String × Nat × List Nat)) (acc : List (List String × Nat) × MemStats),
      (k, v) ∈ acc.1 → (∀ q ∈ L, p ++ [q.1] ≠ k) →
      (k, v) ∈ (L.foldl (fpStep tree p tk (fun U pp => fpGrowth sz f U s pp tk)) acc).1 := by
  intro L
  induction L with
  | nil => intro acc h _; exact h
  | cons a L ihL =>
    intro acc h hne
    rw [List.foldl_cons]
    refine ihL _ ?_ (fun q hq => hne q (List.mem_cons_of_mem a hq))
    have hka : p ++ [a.1] ≠ k := hne a (List.mem_cons_self a L)
    have hins : (k, v) ∈ dictInsert acc.1 (p ++ [a.1]) a.2.1 :=
      dictInsert_mem_ne acc.1 k (p ++ [a.1]) v a.2.1 h hka
    show (k, v) ∈ (fpStep tree p tk (fun U pp => fpGrowth sz f U s pp tk) acc a).1
    simp only [fpStep]
    by_cases hcp : (getPaths tree a.1).isEmpty = true
    · rw [if_pos hcp]
      exact hins
    · rw [if_neg hcp]
      show (k, v) ∈ dictUpdate (dictInsert acc.1 (p ++ [a.1]) a.2.1)
        (fpGrowth sz f (condTransactions (getPaths tree a.1)) s (p ++ [a.1]) tk).1
      refine dictUpdate_mem_preserve _ _ k v hins ?_
      intro q hq hqk
      have hlen := fpGrowth_key_extends sz f (condTransactions (getPaths tree a.1)) s
        (p ++ [a.1]) tk q hq
      rw [hqk, List.length_append, List.length_singleton] at hlen
      omega

/-- Each header entry visited by the pattern-mining fold of `fp_growth`
leaves the pair (prefix extended with its item, its header count) in the
final pattern table, provided the visited keys are distinct. -/
theorem fpFold_mem (sz : FPNode → Nat) (f : Nat) (tree : FPTree) (p : List String)
    (s : Int) (tk : Bool) :
    ∀ (L : List (String × Nat × List Nat)) (acc : List (List String × Nat) × MemStats)
      (e : String × Nat × List Nat),
      e ∈ L → ((L.map (fun q => q.1)).Nodup) →
      (p ++ [e.1], e.2.1) ∈
        (L.foldl (fpStep tree p tk (fun U pp => fpGrowth sz f U s pp tk)) acc).1 := by
  intro L
  induction L with
  | nil => intro acc e he _; exact absurd he (List.not_mem_nil e)
  | cons a L ihL =>
    intro acc e he hnd
    rw [List.map_cons, List.nodup_cons] at hnd
    rw [List.foldl_cons]
    rcases List.mem_cons.mp he with hea | heL
    · subst hea
      have hpair : (p ++ [e.1], e.2.1) ∈
          (fpStep tree p tk (fun U pp => fpGrowth sz f U s pp tk) acc e).1 := by
        simp only [fpStep]
        by_cases hcp : (getPaths tree e.1).isEmpty = true
        · rw [if_pos hcp]
          exact dictInsert_mem_self acc.1 (p ++ [e.1]) e.2.1
        · rw [if_neg hcp]
          show (p ++ [e.1], e.2.1) ∈ dictUpdate (dictInsert acc.1 (p ++ [e.1]) e.2.1)
            (fpGrowth sz f (condTransactions (getPaths tree e.1)) s (p ++ [e.1]) tk).1
          refine dictUpdate_mem_preserve _ _ (p ++ [e.1]) e.2.1
            (dictInsert_mem_self acc.1 (p ++ [e.1]) e.2.1) ?_
          intro q hq hqk
          have hlen := fpGrowth_key_extends sz f (condTransactions (getPaths tree e.1)) s
            (p ++ [e.1]) tk q hq
          rw [hqk] at hlen
          omega
      refine fpFold_keep sz f tree p s tk (p ++ [e.1]) e.2.1 ?_ L _ hpair ?_
      · rw [List.length_append, List.length_singleton]
      · intro q hq hcontra
        have h2 := List.append_cancel_left hcontra
        have h3 : q.1 = e.1 := by simpa using h2
        exact hnd.1 (h3 ▸ List.mem_map_of_mem (fun r => r.1) hq)
    · exact ihL _ e heL hnd.2

/-- With a non-positive support floor, `fp_growth` reports every occurring
item: the pattern table contains the prefix extended with the item, bound to
the item's full occurrence count. -/
theorem fpGrowth_floor_nonpos_mem (sz : FPNode → Nat) (T : List (List String)) (s : Int)
    (p : List String) (tk : Bool) (x : String) (f : Nat)
    (hx : x ∈ T.flatten) (hs : s ≤ 0) :
    (p ++ [x], occCount x T) ∈ (fpGrowth sz (f + 1) T s p tk).1 := by
  have hfreq : (buildTree T s none).frequent_items = freqOf T s := (buildTree_inv T s).2.1
  have hfeq : freqOf T s = itemCounts T := freqOf_nonpos T s hs
  have hanyf : ((freqOf T s).any (fun pr => pr.1 = x)) = true := by
    rw [hfeq]
    exact itemCounts_any_of_flatten T x hx
  obtain ⟨t₀, ht₀, hxt₀⟩ := List.mem_flatten.mp hx
  have hhdr : ((buildTree T s none).header_table.any (fun e => e.1 = x)) = true :=
    (buildTree_inv T s).2.2 t₀ ht₀ x (mem_processedTx_of (freqOf T s) t₀ x hxt₀ hanyf)
  rw [List.any_eq_true] at hhdr
  obtain ⟨e, he, hex⟩ := hhdr
  have hex' : e.1 = x := by simpa using hex
  have hcnt := ((buildTree_inv T s).1).hdrCount e he
  rw [hfreq] at hcnt
  have hval : e.2.1 = occCount x T := by
    rw [hcnt.1, hex', hfeq, lookupCnt_itemCounts]
  have hempty : ¬ ((buildTree T s none).frequent_items.isEmpty = true) := by
    intro hq
    rw [List.isEmpty_iff, hfreq] at hq
    rw [hq] at hanyf
    simp at hanyf
  have heS : e ∈ sortAsc (fun q => q.2.1) (buildTree T s none).header_table :=
    (sortAsc_perm (fun q => q.2.1) _).mem_iff.mpr he
  have hndS : ((sortAsc (fun q => q.2.1) (buildTree T s none).header_table).map
      (fun q => q.1)).Nodup := by
    have hperm := (sortAsc_perm (fun q => q.2.1)
      (buildTree T s none).header_table).map (fun q => q.1)
    exact hperm.nodup_iff.mpr (((buildTree_inv T s).1).hdrNodup)
  simp only [fpGrowth]
  rw [if_neg hempty]
  rw [← hval, ← hex']
  exact fpFold_mem sz f (buildTree T s none) p s tk _ _ e heS hndS

/-- Claim C2 (corrected).  `mine_frequent_itemsets` performs no validation:
whenever the resolved absolute floor `int(min_support * num_transactions)` is
non-positive — in particular for a non-positive ratio — the call proceeds
silently and every item occurring anywhere in the transactions is reported as
a frequent singleton bound to its full occurrence count (no configuration
error exists anywhere in the source). -/
theorem c2_theorem (sz : FPNode → Nat) (T : List (List String)) (q : ℚ) (tk : Bool)
    (x : String) (f : Nat)
    (hx : x ∈ T.flatten)
    (hq : (mineFrequentItemsets sz (f + 1) T q tk).min_support_count ≤ 0) :
    ([x], occCount x T) ∈ (mineFrequentItemsets sz (f + 1) T q tk).frequent_itemsets := by
  have hq' : intTrunc (q * (T.length : ℚ)) ≤ 0 := hq
  have hmem := fpGrowth_floor_nonpos_mem sz T (intTrunc (q * (T.length : ℚ))) [] tk x f hx hq'
  show ([x], occCount x T) ∈ (fpGrowth sz (f + 1) T (intTrunc (q * (T.length : ℚ))) [] tk).1
  simpa using hmem

/-- Witness for C2: ratio 0 on `[[a]]` resolves floor 0 and the result table
contains the singleton `a` with its occurrence count 1. -/
theorem c2_witness :
    "a" ∈ [["a"]].flatten ∧
    (mineFrequentItemsets szZero 3 [["a"]] 0 false).min_support_count ≤ 0 ∧
    (["a"], occCount "a" [["a"]]) ∈
      (mineFrequentItemsets szZero 3 [["a"]] 0 false).frequent_itemsets :=
  ⟨by decide, by norm_num [mineFrequentItemsets, intTrunc],
    c2_theorem szZero [["a"]] 0 false "a" 2 (by decide)
      (by norm_num [mineFrequentItemsets, intTrunc])⟩
